import Mathlib

/-!
Shallow embedding of the godb query-execution operators
(`src/godb/*.go`, `src/unnamed/part_000`, `src/unnamed/part_001`).

Modelling conventions:
* Go `*Tuple` results of a pull function are modelled as `Option Tuple`;
  a Go pull returns the pair `(tuple, error)`, modelled as `PullRes`.
* Machine `int64` is modelled as `Int` (no operator here performs
  arithmetic that can overflow in the claims' ranges; sums/counts are
  modelled exactly as the source computes them, without a modulus,
  which is noted where it matters).
* Child operators are modelled as the finite list of tuples they
  produce before signalling exhaustion with `(nil, nil)`; pulls past the
  end keep signalling exhaustion (the permanence property that claims
  assume of children).
* Go closures holding mutable variables become explicit state types
  with a step function `pull : State -> PullRes x State`.
* A Go runtime panic (failed type assertion, nil dereference) is
  modelled by `Option`/`none` where it can occur.
-/

/-- Field type tags (`IntType`, `StringType` from the godb type system;
the tuple/type primitives are external collaborators per the spec). -/
inductive DBType where
  | IntType
  | StringType
deriving DecidableEq, Repr

/-- A field value: the closed variant over integers and strings
(`IntField`, `StringField` in the source). -/
inductive DBValue where
  | IntField (Value : Int)
  | StringField (Value : String)
deriving DecidableEq, Repr

/-- `FieldType` from the source: name, table qualifier, type tag. -/
structure FieldType where
  Fname : String
  TableQualifier : String
  Ftype : DBType
deriving DecidableEq, Repr

/-- `TupleDesc`: ordered sequence of field types. -/
structure TupleDesc where
  Fields : List FieldType
deriving DecidableEq, Repr

/-- `Tuple`: descriptor plus ordered field values.  The source's record
id (`Rid`) is only ever set to nil by the operators modelled here and is
omitted. -/
structure Tuple where
  Desc : TupleDesc
  Fields : List DBValue
deriving DecidableEq, Repr

/-- Errors crossing the pull interface.  `ioEOF` is the distinguished
`io.EOF` value used by `src/godb/order_by_op.go` to signal exhaustion;
every other error is a message produced with `fmt.Errorf`. -/
inductive Err where
  | ioEOF
  | msg (s : String)
deriving DecidableEq, Repr

/-- The result of one call to a Go pull function: `(*Tuple, error)`. -/
abbrev PullRes := Option Tuple × Option Err

/-- The `Expr` capability (external collaborator): evaluate against a
tuple (possibly the nil tuple, as `LimitOp` does) to a value or an
error, and report a static output type (`GetExprType`). -/
structure Expr where
  EvalExpr : Option Tuple → Except String DBValue
  GetExprType : FieldType

/-- Modelled from the spec: `TupleDesc.merge` lives in the external
tuple primitives (`tuple.go`, not under `src/`); per §6 it is the
concatenation of the two descriptors' field lists, order preserved. -/
def TupleDesc.merge (a b : TupleDesc) : TupleDesc :=
  ⟨a.Fields ++ b.Fields⟩

/-- Concatenation of two (non-nil) tuples: fields of the left operand
first, descriptors merged.  This is the non-nil case of `joinTuples`. -/
def tupleConcat (a b : Tuple) : Tuple :=
  ⟨a.Desc.merge b.Desc, a.Fields ++ b.Fields⟩

/-- Modelled from the spec: `joinTuples` lives in the external tuple
primitives (`tuple.go`, not under `src/`).  Per §4.6/§6 it concatenates
two tuples (left fields first) and treats a nil operand as the empty
contribution, returning the other operand. -/
def joinTuples : Option Tuple → Option Tuple → Option Tuple
  | none, t => t
  | t, none => t
  | some a, some b => some (tupleConcat a b)

/-- Modelled from the spec: `Tuple.tupleKey` lives in the external tuple
primitives (`tuple.go`, not under `src/`).  Per §3 a group key is "used
as a map key by value equality, not identity", so the key of a tuple is
its list of field values. -/
def Tuple.tupleKey (t : Tuple) : List DBValue :=
  t.Fields

/-! ## Pull-function traces

A pull machine is a state type `σ` with a step `σ → PullRes × σ`.
`pullN` lists the results of the first `n` pulls; `Silent` says every
future pull signals `(nil, nil)`; `Emits` says the machine produces
exactly a given list of tuples and then stays exhausted. -/

def pullN {σ : Type} (pull : σ → PullRes × σ) : Nat → σ → List PullRes
  | 0, _ => []
  | n + 1, s => (pull s).1 :: pullN pull n (pull s).2

/-- Every pull from `s` on returns the `(nil, nil)` exhaustion signal. -/
def Silent {σ : Type} (pull : σ → PullRes × σ) (s : σ) : Prop :=
  ∀ n : Nat, ∀ r ∈ pullN pull n s, r = ((none : Option Tuple), (none : Option Err))

/-- The machine, started at `s`, yields exactly the tuples of `L` (one
per pull, with no error) and afterwards signals `(nil, nil)` forever. -/
inductive Emits {σ : Type} (pull : σ → PullRes × σ) : σ → List Tuple → Prop
  | done {s : σ} : Silent pull s → Emits pull s []
  | step {s s' : σ} {t : Tuple} {L : List Tuple} :
      pull s = ((some t, none), s') → Emits pull s' L → Emits pull s (t :: L)

/-- If an invariant holds at `s`, and every state satisfying it steps to
`(nil, nil)` and a state again satisfying it, then `s` is silent. -/
theorem silent_of_invariant {σ : Type} {pull : σ → PullRes × σ} (P : σ → Prop)
    (hstep : ∀ s, P s → (pull s).1 = ((none : Option Tuple), (none : Option Err)) ∧ P (pull s).2)
    {s : σ} (hs : P s) : Silent pull s := by
  intro n
  induction n generalizing s with
  | zero => intro r hr; simp [pullN] at hr
  | succ n ih =>
    intro r hr
    simp only [pullN, List.mem_cons] at hr
    rcases hr with h | h
    · exact h ▸ (hstep s hs).1
    · exact ih (hstep s hs).2 r h

/-! ## Streaming a buffered list

Both OrderBy implementations, after sorting, hand out the buffered
tuples one at a time, tracking an index into the buffer; the state is
modelled as the remaining suffix of the buffer. -/

/-- The post-sort pull function of `src/unnamed/part_001` `OrderBy`
(lines 100-108): past the end it returns `(nil, nil)`. -/
def listPull : List Tuple → PullRes × List Tuple
  | [] => ((none, none), [])
  | t :: ts => ((some t, none), ts)

/-- The post-sort pull function of `src/godb/order_by_op.go` `OrderBy`
(lines 95-103): past the end it returns `(nil, io.EOF)`. -/
def listPullEOF : List Tuple → PullRes × List Tuple
  | [] => ((none, some Err.ioEOF), [])
  | t :: ts => ((some t, none), ts)

theorem listPull_silent_nil : Silent listPull [] := by
  apply silent_of_invariant (fun s => s = [])
  · rintro s rfl; exact ⟨rfl, rfl⟩
  · rfl

/-- Streaming a list emits exactly that list. -/
theorem listPull_emits (L : List Tuple) : Emits listPull L L := by
  induction L with
  | nil => exact .done listPull_silent_nil
  | cons t ts ih => exact .step rfl ih

/-! ## OrderBy (`src/unnamed/part_001`)

The struct keeps the key-expression list and the matching
ascending-flag list; the constructor rejects mismatched lengths. -/

structure OrderBy where
  orderBy : List Expr
  ascending : List Bool

/-- `NewOrderBy` (part_001 lines 20-31); the child operator is kept
outside the model (children are tuple lists). -/
def NewOrderBy (orderByFields : List Expr) (ascending : List Bool) :
    Except Err OrderBy :=
  if orderByFields.length ≠ ascending.length then
    .error (.msg "length of orderByFields and ascending must match")
  else
    .ok ⟨orderByFields, ascending⟩

/-- Does a value's variant match a declared type tag?  The sort
comparator type-asserts values per the key expression's static type,
so a mismatch is a Go panic. -/
def hasType : DBValue → DBType → Bool
  | .IntField _, .IntType => true
  | .StringField _, .StringType => true
  | _, _ => false

/-- The multi-key "less" comparator of part_001 lines 73-97, over the
zipped (expression, ascending) pairs (the source indexes the two
parallel lists, whose lengths the constructor made equal).  `none`
models the panics of the source: an evaluation error, or a value whose
variant does not match the key's static type.  The first key on which
the evaluated values differ decides, honouring the flag; a full tie
compares as `false`. -/
def obLessKeys : List (Expr × Bool) → Tuple → Tuple → Option Bool
  | [], _, _ => some false
  | (e, asc) :: rest, t1, t2 =>
    match e.EvalExpr (some t1), e.EvalExpr (some t2) with
    | .ok v1, .ok v2 =>
      match e.GetExprType.Ftype with
      | .IntType =>
        match v1, v2 with
        | .IntField a, .IntField b =>
          if a ≠ b then some (if asc then decide (a < b) else decide (b < a))
          else obLessKeys rest t1 t2
        | _, _ => none
      | .StringType =>
        match v1, v2 with
        | .StringField a, .StringField b =>
          if a ≠ b then some (if asc then decide (a < b) else decide (b < a))
          else obLessKeys rest t1 t2
        | _, _ => none
    | _, _ => none

/-- The comparator of an `OrderBy` instance. -/
def OrderBy.less (o : OrderBy) (t1 t2 : Tuple) : Option Bool :=
  obLessKeys (o.orderBy.zip o.ascending) t1 t2

/-- The key expressions of `o` are defined (evaluate successfully, with
the variant the static type announces) on tuple `t`; outside this
condition the source comparator panics. -/
def obWellTyped (o : OrderBy) (t : Tuple) : Bool :=
  (o.orderBy.zip o.ascending).all fun p =>
    match p.1.EvalExpr (some t) with
    | .ok v => hasType v p.1.GetExprType.Ftype
    | .error _ => false

/-- The sorted buffer built by `OrderBy.Iterator` (part_001 lines
58-97): drain the child, then `sort.SliceStable` with the multi-key
comparator.  `sort.SliceStable(less)` is contracted to produce the
(unique, for a strict weak order) stable less-sorted permutation, which
is what a stable merge sort with `le a b := not (less b a)` computes;
the `getD false` branch is unreachable whenever the key expressions are
defined on the input tuples (the source panics there instead). -/
def OrderBy.sortedBuffer (o : OrderBy) (ts : List Tuple) : List Tuple :=
  ts.mergeSort fun a b => !((o.less b a).getD false)

/-- Evaluation of a key expression on a tuple is defined for the
comparator: it succeeds and its variant matches the static type. -/
def keyDefined (e : Expr) (t : Tuple) : Bool :=
  match e.EvalExpr (some t) with
  | .ok v => hasType v e.GetExprType.Ftype
  | .error _ => false

/-- Direction-aware strict comparison used at one key position. -/
def dirDec {α : Type} [LinearOrder α] (asc : Bool) (x y : α) : Bool :=
  if asc then decide (x < y) else decide (y < x)

theorem obLessKeys_cons_int {e : Expr} {asc : Bool} {rest : List (Expr × Bool)}
    {t1 t2 : Tuple} {a b : Int}
    (h1 : e.EvalExpr (some t1) = .ok (.IntField a))
    (h2 : e.EvalExpr (some t2) = .ok (.IntField b))
    (hft : e.GetExprType.Ftype = .IntType) :
    obLessKeys ((e, asc) :: rest) t1 t2 =
      if a ≠ b then some (dirDec asc a b) else obLessKeys rest t1 t2 := by
  simp only [obLessKeys, h1, h2, hft, dirDec]

theorem obLessKeys_cons_str {e : Expr} {asc : Bool} {rest : List (Expr × Bool)}
    {t1 t2 : Tuple} {a b : String}
    (h1 : e.EvalExpr (some t1) = .ok (.StringField a))
    (h2 : e.EvalExpr (some t2) = .ok (.StringField b))
    (hft : e.GetExprType.Ftype = .StringType) :
    obLessKeys ((e, asc) :: rest) t1 t2 =
      if a ≠ b then some (dirDec asc a b) else obLessKeys rest t1 t2 := by
  simp only [obLessKeys, h1, h2, hft, dirDec]
  rcases eq_or_ne a b with h | h
  · simp [h]
  · simp only [h, ne_eq, not_false_eq_true, if_true]
    cases asc <;> simp [decide_eq_decide]

theorem keyDefined_int {e : Expr} {t : Tuple} (h : keyDefined e t = true)
    (hft : e.GetExprType.Ftype = .IntType) :
    ∃ a : Int, e.EvalExpr (some t) = .ok (.IntField a) := by
  unfold keyDefined at h
  cases hv : e.EvalExpr (some t) with
  | error _ => rw [hv] at h; simp at h
  | ok v =>
    rw [hv] at h
    cases v with
    | IntField a => exact ⟨a, rfl⟩
    | StringField s => rw [hft] at h; simp [hasType] at h

theorem keyDefined_str {e : Expr} {t : Tuple} (h : keyDefined e t = true)
    (hft : e.GetExprType.Ftype = .StringType) :
    ∃ s : String, e.EvalExpr (some t) = .ok (.StringField s) := by
  unfold keyDefined at h
  cases hv : e.EvalExpr (some t) with
  | error _ => rw [hv] at h; simp at h
  | ok v =>
    rw [hv] at h
    cases v with
    | IntField a => rw [hft] at h; simp [hasType] at h
    | StringField s => exact ⟨s, rfl⟩

theorem dirDec_ne {α : Type} [LinearOrder α] {asc : Bool} {x y : α}
    (h : dirDec asc x y = true) : x ≠ y := by
  cases asc <;> simp [dirDec] at h <;> exact fun e => absurd h (by simp [e])

theorem dirDec_asymm {α : Type} [LinearOrder α] {asc : Bool} {x y : α}
    (h : dirDec asc x y = true) : dirDec asc y x = false := by
  cases asc <;> simp [dirDec] at h ⊢ <;> exact le_of_lt h

theorem dirDec_total_of_ne {α : Type} [LinearOrder α] {asc : Bool} {x y : α}
    (h : x ≠ y) : dirDec asc x y = true ∨ dirDec asc y x = true := by
  rcases lt_or_gt_of_ne h with hlt | hgt
  · cases asc
    · exact .inr (by simp [dirDec]; exact hlt)
    · exact .inl (by simp [dirDec]; exact hlt)
  · cases asc
    · exact .inl (by simp [dirDec]; exact hgt)
    · exact .inr (by simp [dirDec]; exact hgt)

theorem dirDec_trans {α : Type} [LinearOrder α] {asc : Bool} {x y z : α}
    (h1 : dirDec asc x y = true) (h2 : dirDec asc y z = true) :
    dirDec asc x z = true := by
  cases asc <;> simp [dirDec] at h1 h2 ⊢
  · exact lt_trans h2 h1
  · exact lt_trans h1 h2

theorem obLessKeys_isSome : ∀ (l : List (Expr × Bool)) (t1 t2 : Tuple),
    (∀ p ∈ l, keyDefined p.1 t1 = true) → (∀ p ∈ l, keyDefined p.1 t2 = true) →
    (obLessKeys l t1 t2).isSome = true
  | [], _, _, _, _ => rfl
  | (e, asc) :: rest, t1, t2, h1, h2 => by
    have ih := obLessKeys_isSome rest t1 t2
      (fun p hp => h1 p (List.mem_cons_of_mem _ hp))
      (fun p hp => h2 p (List.mem_cons_of_mem _ hp))
    have k1 := h1 (e, asc) (List.mem_cons_self _ _)
    have k2 := h2 (e, asc) (List.mem_cons_self _ _)
    cases hft : e.GetExprType.Ftype
    · obtain ⟨a, ha⟩ := keyDefined_int k1 hft
      obtain ⟨b, hb⟩ := keyDefined_int k2 hft
      rw [obLessKeys_cons_int ha hb hft]
      split
      · rfl
      · exact ih
    · obtain ⟨a, ha⟩ := keyDefined_str k1 hft
      obtain ⟨b, hb⟩ := keyDefined_str k2 hft
      rw [obLessKeys_cons_str ha hb hft]
      split
      · rfl
      · exact ih

theorem obLessKeys_asymm : ∀ (l : List (Expr × Bool)) (t1 t2 : Tuple),
    (∀ p ∈ l, keyDefined p.1 t1 = true) → (∀ p ∈ l, keyDefined p.1 t2 = true) →
    obLessKeys l t1 t2 = some true → obLessKeys l t2 t1 = some false
  | [], _, _, _, _, h => by simp [obLessKeys] at h
  | (e, asc) :: rest, t1, t2, h1, h2, h => by
    have k1 := h1 (e, asc) (List.mem_cons_self _ _)
    have k2 := h2 (e, asc) (List.mem_cons_self _ _)
    cases hft : e.GetExprType.Ftype
    · obtain ⟨a, ha⟩ := keyDefined_int k1 hft
      obtain ⟨b, hb⟩ := keyDefined_int k2 hft
      rw [obLessKeys_cons_int ha hb hft] at h
      rw [obLessKeys_cons_int hb ha hft]
      by_cases hab : a = b
      · subst hab
        rw [if_neg (by simp)] at h ⊢
        exact obLessKeys_asymm rest t1 t2
          (fun p hp => h1 p (List.mem_cons_of_mem _ hp))
          (fun p hp => h2 p (List.mem_cons_of_mem _ hp)) h
      · rw [if_pos hab] at h
        rw [if_pos (Ne.symm hab)]
        exact congrArg some (dirDec_asymm (Option.some.inj h))
    · obtain ⟨a, ha⟩ := keyDefined_str k1 hft
      obtain ⟨b, hb⟩ := keyDefined_str k2 hft
      rw [obLessKeys_cons_str ha hb hft] at h
      rw [obLessKeys_cons_str hb ha hft]
      by_cases hab : a = b
      · subst hab
        rw [if_neg (by simp)] at h ⊢
        exact obLessKeys_asymm rest t1 t2
          (fun p hp => h1 p (List.mem_cons_of_mem _ hp))
          (fun p hp => h2 p (List.mem_cons_of_mem _ hp)) h
      · rw [if_pos hab] at h
        rw [if_pos (Ne.symm hab)]
        exact congrArg some (dirDec_asymm (Option.some.inj h))

theorem obLessKeys_cotrans : ∀ (l : List (Expr × Bool)) (ta tb tc : Tuple),
    (∀ p ∈ l, keyDefined p.1 ta = true) → (∀ p ∈ l, keyDefined p.1 tb = true) →
    (∀ p ∈ l, keyDefined p.1 tc = true) →
    obLessKeys l tc ta = some true →
    obLessKeys l tb ta = some true ∨ obLessKeys l tc tb = some true
  | [], _, _, _, _, _, _, h => by simp [obLessKeys] at h
  | (e, asc) :: rest, ta, tb, tc, ha, hb, hc, h => by
    have ka := ha (e, asc) (List.mem_cons_self _ _)
    have kb := hb (e, asc) (List.mem_cons_self _ _)
    have kc := hc (e, asc) (List.mem_cons_self _ _)
    have ihargs := fun (t : Tuple) (h : ∀ p ∈ (e, asc) :: rest, keyDefined p.1 t = true)
      (p : Expr × Bool) (hp : p ∈ rest) => h p (List.mem_cons_of_mem _ hp)
    cases hft : e.GetExprType.Ftype
    · obtain ⟨va, hva⟩ := keyDefined_int ka hft
      obtain ⟨vb, hvb⟩ := keyDefined_int kb hft
      obtain ⟨vc, hvc⟩ := keyDefined_int kc hft
      rw [obLessKeys_cons_int hvc hva hft] at h
      rw [obLessKeys_cons_int hvb hva hft, obLessKeys_cons_int hvc hvb hft]
      by_cases hca : vc = va
      · rw [if_neg (by simp [hca])] at h
        by_cases hba : vb = va
        · rw [if_neg (by simp [hba]), if_neg (by simp [hca, hba])]
          exact obLessKeys_cotrans rest ta tb tc
            (ihargs ta ha) (ihargs tb hb) (ihargs tc hc) h
        · rcases @dirDec_total_of_ne _ _ asc _ _ hba with hd | hd
          · exact .inl (by rw [if_pos hba]; exact congrArg some hd)
          · refine .inr ?_
            rw [if_pos (by rw [hca]; exact Ne.symm hba)]
            rw [hca]
            exact congrArg some hd
      · rw [if_pos hca] at h
        replace h := Option.some.inj h
        by_cases hba : vb = va
        · refine .inr ?_
          rw [if_pos (by rw [hba]; exact hca), hba]
          exact congrArg some h
        · rcases @dirDec_total_of_ne _ _ asc _ _ hba with hd | hd
          · exact .inl (by rw [if_pos hba]; exact congrArg some hd)
          · refine .inr ?_
            have hcb := dirDec_trans h hd
            rw [if_pos (dirDec_ne hcb)]
            exact congrArg some hcb
    · obtain ⟨va, hva⟩ := keyDefined_str ka hft
      obtain ⟨vb, hvb⟩ := keyDefined_str kb hft
      obtain ⟨vc, hvc⟩ := keyDefined_str kc hft
      rw [obLessKeys_cons_str hvc hva hft] at h
      rw [obLessKeys_cons_str hvb hva hft, obLessKeys_cons_str hvc hvb hft]
      by_cases hca : vc = va
      · rw [if_neg (by simp [hca])] at h
        by_cases hba : vb = va
        · rw [if_neg (by simp [hba]), if_neg (by simp [hca, hba])]
          exact obLessKeys_cotrans rest ta tb tc
            (ihargs ta ha) (ihargs tb hb) (ihargs tc hc) h
        · rcases @dirDec_total_of_ne _ _ asc _ _ hba with hd | hd
          · exact .inl (by rw [if_pos hba]; exact congrArg some hd)
          · refine .inr ?_
            rw [if_pos (by rw [hca]; exact Ne.symm hba)]
            rw [hca]
            exact congrArg some hd
      · rw [if_pos hca] at h
        replace h := Option.some.inj h
        by_cases hba : vb = va
        · refine .inr ?_
          rw [if_pos (by rw [hba]; exact hca), hba]
          exact congrArg some h
        · rcases @dirDec_total_of_ne _ _ asc _ _ hba with hd | hd
          · exact .inl (by rw [if_pos hba]; exact congrArg some hd)
          · refine .inr ?_
            have hcb := dirDec_trans h hd
            rw [if_pos (dirDec_ne hcb)]
            exact congrArg some hcb

theorem obLessKeys_of_evals_eq : ∀ (l : List (Expr × Bool)) (t1 t2 : Tuple),
    (∀ p ∈ l, keyDefined p.1 t1 = true) →
    (∀ p ∈ l, p.1.EvalExpr (some t1) = p.1.EvalExpr (some t2)) →
    obLessKeys l t1 t2 = some false
  | [], _, _, _, _ => rfl
  | (e, asc) :: rest, t1, t2, h1, heq => by
    have k1 := h1 (e, asc) (List.mem_cons_self _ _)
    have he := heq (e, asc) (List.mem_cons_self _ _)
    have ih := obLessKeys_of_evals_eq rest t1 t2
      (fun p hp => h1 p (List.mem_cons_of_mem _ hp))
      (fun p hp => heq p (List.mem_cons_of_mem _ hp))
    cases hft : e.GetExprType.Ftype
    · obtain ⟨a, ha⟩ := keyDefined_int k1 hft
      have hb : e.EvalExpr (some t2) = .ok (.IntField a) := by rw [← he]; exact ha
      rw [obLessKeys_cons_int ha hb hft, if_neg (by simp)]
      exact ih
    · obtain ⟨a, ha⟩ := keyDefined_str k1 hft
      have hb : e.EvalExpr (some t2) = .ok (.StringField a) := by rw [← he]; exact ha
      rw [obLessKeys_cons_str ha hb hft, if_neg (by simp)]
      exact ih

theorem obWellTyped_iff (o : OrderBy) (t : Tuple) :
    obWellTyped o t = true ↔ ∀ p ∈ o.orderBy.zip o.ascending, keyDefined p.1 t = true := by
  unfold obWellTyped keyDefined
  rw [List.all_eq_true]

/-- On key-defined tuples, the boolean `not (less u t)` used as the
merge-sort order is the statement that `u` is not strictly below `t`. -/
theorem obNotLess_iff {l : List (Expr × Bool)} {t u : Tuple}
    (ht : ∀ p ∈ l, keyDefined p.1 t = true) (hu : ∀ p ∈ l, keyDefined p.1 u = true) :
    (!((obLessKeys l u t).getD false)) = true ↔ obLessKeys l u t = some false := by
  have hs := obLessKeys_isSome l u t hu ht
  cases hv : obLessKeys l u t with
  | none => rw [hv] at hs; simp at hs
  | some b => cases b <;> simp

/-- The key expressions are defined (for the comparator) on `t`. -/
def obP (o : OrderBy) (t : Tuple) : Prop :=
  ∀ p ∈ o.orderBy.zip o.ascending, keyDefined p.1 t = true

/-- The input list annotated with the proof that every element is
key-defined (proof device for the sort lemmas). -/
def obLift (o : OrderBy) (ts : List Tuple) (HT : ∀ t ∈ ts, obP o t) :
    List {t : Tuple // obP o t} :=
  ts.attach.map fun x => ⟨x.1, HT x.1 x.2⟩

theorem obLift_map_val (o : OrderBy) (ts : List Tuple) (HT : ∀ t ∈ ts, obP o t) :
    (obLift o ts HT).map Subtype.val = ts := by
  unfold obLift
  rw [List.map_map]
  exact List.attach_map_subtype_val ts

/-- The boolean order handed to the stable merge sort, on key-defined
tuples. -/
def obLe (o : OrderBy) (a b : {t : Tuple // obP o t}) : Bool :=
  !((o.less b.1 a.1).getD false)

theorem obLe_total (o : OrderBy) (a b : {t : Tuple // obP o t}) :
    (obLe o a b || obLe o b a) = true := by
  by_contra hcon
  simp only [Bool.or_eq_true, not_or] at hcon
  obtain ⟨h1, h2⟩ := hcon
  simp only [obLe, Bool.not_eq_true, Bool.not_eq_false] at h1 h2
  have s1 := obLessKeys_isSome _ b.1 a.1 b.2 a.2
  have s2 := obLessKeys_isSome _ a.1 b.1 a.2 b.2
  cases hv1 : obLessKeys (o.orderBy.zip o.ascending) b.1 a.1 with
  | none => rw [hv1] at s1; simp at s1
  | some x =>
    cases hv2 : obLessKeys (o.orderBy.zip o.ascending) a.1 b.1 with
    | none => rw [hv2] at s2; simp at s2
    | some y =>
      have e1 : x = true := by
        have := h1; rw [show o.less b.1 a.1 = some x from hv1] at this; simpa using this
      have e2 : y = true := by
        have := h2; rw [show o.less a.1 b.1 = some y from hv2] at this; simpa using this
      subst e1; subst e2
      have := obLessKeys_asymm _ b.1 a.1 b.2 a.2 hv1
      rw [this] at hv2
      exact absurd (Option.some.inj hv2) (by simp)

theorem obLe_trans (o : OrderBy) (a b c : {t : Tuple // obP o t}) :
    obLe o a b → obLe o b c → obLe o a c := by
  intro hab hbc
  have h1 : obLessKeys (o.orderBy.zip o.ascending) b.1 a.1 = some false :=
    (obNotLess_iff a.2 b.2).mp hab
  have h2 : obLessKeys (o.orderBy.zip o.ascending) c.1 b.1 = some false :=
    (obNotLess_iff b.2 c.2).mp hbc
  refine (obNotLess_iff a.2 c.2).mpr ?_
  by_contra hcon
  have s := obLessKeys_isSome _ c.1 a.1 c.2 a.2
  cases hv : obLessKeys (o.orderBy.zip o.ascending) c.1 a.1 with
  | none => rw [hv] at s; simp at s
  | some x =>
    cases x with
    | false => exact hcon hv
    | true =>
      rcases obLessKeys_cotrans _ a.1 b.1 c.1 a.2 b.2 c.2 hv with h | h
      · rw [h1] at h; exact absurd (Option.some.inj h) (by simp)
      · rw [h2] at h; exact absurd (Option.some.inj h) (by simp)

theorem sortedBuffer_eq_map (o : OrderBy) (ts : List Tuple) (HT : ∀ t ∈ ts, obP o t) :
    o.sortedBuffer ts = ((obLift o ts HT).mergeSort (obLe o)).map Subtype.val := by
  have h := @List.map_mergeSort {t : Tuple // obP o t} Tuple (obLe o)
    (fun x y => !((o.less y x).getD false)) Subtype.val (obLift o ts HT)
    (fun a _ b _ => rfl)
  rw [h, obLift_map_val]
  rfl

theorem sortedBuffer_pairwise (o : OrderBy) (ts : List Tuple)
    (HT : ∀ t ∈ ts, obP o t) :
    (o.sortedBuffer ts).Pairwise fun a b => o.less b a = some false := by
  rw [sortedBuffer_eq_map o ts HT]
  have hp := List.sorted_mergeSort (obLe_trans o) (obLe_total o) (obLift o ts HT)
  exact hp.map Subtype.val fun a b hab => (obNotLess_iff a.2 b.2).mp hab

theorem sortedBuffer_stable (o : OrderBy) (ts : List Tuple)
    (HT : ∀ t ∈ ts, obP o t) (a b : Tuple)
    (hsub : List.Sublist [a, b] ts)
    (heq : ∀ p ∈ o.orderBy.zip o.ascending,
      p.1.EvalExpr (some a) = p.1.EvalExpr (some b)) :
    List.Sublist [a, b] (o.sortedBuffer ts) := by
  have hbmem : b ∈ ts := hsub.subset (by simp)
  have hba : obLessKeys (o.orderBy.zip o.ascending) b a = some false :=
    obLessKeys_of_evals_eq _ b a (HT b hbmem) (fun p hp => (heq p hp).symm)
  rw [sortedBuffer_eq_map o ts HT]
  have hsub2 : List.Sublist [a, b] ((obLift o ts HT).map Subtype.val) := by
    rw [obLift_map_val o ts HT]
    exact hsub
  obtain ⟨l', hl', hmap⟩ := List.sublist_map_iff.mp hsub2
  rcases l' with _ | ⟨x, _ | ⟨y, _ | ⟨z, l3⟩⟩⟩ <;> simp only [List.map] at hmap
  · exact absurd hmap (by simp)
  · exact absurd hmap (by simp)
  case cons.cons.cons =>
    exact absurd hmap (by simp)
  case cons.cons.nil =>
    have hx : x.1 = a := by
      have := congrArg (fun l => l.head? ) hmap
      simpa using this.symm
    have hy : y.1 = b := by
      have := congrArg (fun l => l.getLast? ) hmap
      simpa using this.symm
    have hab : obLe o x y = true := by
      simp only [obLe, hx, hy, OrderBy.less, hba]
      rfl
    have hres := List.pair_sublist_mergeSort (obLe_trans o) (obLe_total o) hab hl'
    have hm := hres.map Subtype.val
    simpa [hx, hy] using hm

/-! ## The AggState family (`src/godb/order_by_op.go` lines 110-399)

The five accumulator kinds are a closed variant set.  `Copy` returns a
fresh struct whose fields are copied from the receiver, so on the level
of data it is the identity; the aliasing consequences of `Copy`
allocating a new object are modelled by the heap below. -/

inductive AggState where
  | CountAggState (al : String) (expr : Expr) (count : Int)
  | SumAggState (al : String) (expr : Expr) (sum : Int)
  | AvgAggState (al : String) (expr : Expr) (sum : Int) (count : Int)
  | MaxAggState (al : String) (expr : Expr) (max : Int) (first : Bool)
  | MinAggState (al : String) (expr : Expr) (min : Int) (first : Bool)

/-- `Init` on a freshly allocated (zero-valued) `CountAggState`:
count is reset to 0. -/
def initCountAggState (al : String) (e : Expr) : AggState :=
  .CountAggState al e 0

/-- `Init` on a freshly allocated `SumAggState`: sum starts at
`int64(0)` (the source field is `any` but only ever holds `int64`
along the operators modelled here). -/
def initSumAggState (al : String) (e : Expr) : AggState :=
  .SumAggState al e 0

/-- `Init` on a freshly allocated `AvgAggState`: sum and count 0. -/
def initAvgAggState (al : String) (e : Expr) : AggState :=
  .AvgAggState al e 0 0

/-- `Init` on a freshly allocated `MaxAggState`: `first` is set to
true; `max` is left at the Go zero value 0 (`Init` does not assign
it). -/
def initMaxAggState (al : String) (e : Expr) : AggState :=
  .MaxAggState al e 0 true

/-- `Init` on a freshly allocated `MinAggState`: `first` true, `min`
left at the Go zero value 0. -/
def initMinAggState (al : String) (e : Expr) : AggState :=
  .MinAggState al e 0 true

/-- `Copy` of each aggregation state copies every field into a new
struct: on data it is the identity (the fresh allocation matters only
for aliasing, modelled by `AggHeap` below). -/
def AggState.Copy (s : AggState) : AggState := s

/-- `AddTuple` for each variant.  `none` models the Go panic of
`intAggGetter` (the `val.(IntField)` type assertion) when the governing
expression evaluates to a string.  When the expression fails to
evaluate, the source prints a message and returns with the accumulator
unchanged: the error is discarded (see §9 of the spec). -/
def AggState.AddTuple (s : AggState) (t : Tuple) : Option AggState :=
  match s with
  | .CountAggState al e c => some (.CountAggState al e (c + 1))
  | .SumAggState al e sum =>
    match e.EvalExpr (some t) with
    | .error _ => some (.SumAggState al e sum)
    | .ok (.IntField n) => some (.SumAggState al e (sum + n))
    | .ok (.StringField _) => none
  | .AvgAggState al e sum c =>
    match e.EvalExpr (some t) with
    | .error _ => some (.AvgAggState al e sum c)
    | .ok (.IntField n) => some (.AvgAggState al e (sum + n) (c + 1))
    | .ok (.StringField _) => none
  | .MaxAggState al e m first =>
    match e.EvalExpr (some t) with
    | .error _ => some (.MaxAggState al e m first)
    | .ok (.IntField n) =>
      if first then some (.MaxAggState al e n false)
      else if n > m then some (.MaxAggState al e n false)
      else some (.MaxAggState al e m false)
    | .ok (.StringField _) => none
  | .MinAggState al e m first =>
    match e.EvalExpr (some t) with
    | .error _ => some (.MinAggState al e m first)
    | .ok (.IntField n) =>
      if first then some (.MinAggState al e n false)
      else if n < m then some (.MinAggState al e n false)
      else some (.MinAggState al e m false)
    | .ok (.StringField _) => none

/-- `GetTupleDesc` of each variant: one field named by the alias;
`CountAggState` hard-codes `IntType`, the others take the governing
expression's static type.  The table qualifier is the Go zero value. -/
def AggState.GetTupleDesc : AggState → TupleDesc
  | .CountAggState al _ _ => ⟨[⟨al, "", .IntType⟩]⟩
  | .SumAggState al e _ => ⟨[⟨al, "", e.GetExprType.Ftype⟩]⟩
  | .AvgAggState al e _ _ => ⟨[⟨al, "", e.GetExprType.Ftype⟩]⟩
  | .MaxAggState al e _ _ => ⟨[⟨al, "", e.GetExprType.Ftype⟩]⟩
  | .MinAggState al e _ _ => ⟨[⟨al, "", e.GetExprType.Ftype⟩]⟩

/-- The single field value `Finalize` wraps.  For AVG the source
computes `int64(float64(sum) / float64(count))`; for the magnitudes in
scope (and a nonzero count) this is division truncated toward zero,
`Int.tdiv`.  (A zero count is a NaN conversion in Go, unspecified; no
claim evaluates AVG on an empty group.) -/
def AggState.finalVal : AggState → DBValue
  | .CountAggState _ _ c => .IntField c
  | .SumAggState _ _ sum => .IntField sum
  | .AvgAggState _ _ sum c => .IntField (Int.tdiv sum c)
  | .MaxAggState _ _ m _ => .IntField m
  | .MinAggState _ _ m _ => .IntField m

/-- `Finalize`: the one-field result tuple carrying `finalVal` under
`GetTupleDesc`. -/
def AggState.Finalize (s : AggState) : Tuple :=
  ⟨s.GetTupleDesc, [s.finalVal]⟩

/-! ## A heap of aggregation states

Go `AggState` values are pointers: `Copy` allocates a fresh object.
To state that mutating a copy leaves the template intact, states live
in a heap (a list of cells) addressed by index. -/

abbrev AggHeap := List AggState

/-- `Copy` on the cell at `i`: allocates a fresh cell holding the
copied data and returns its address (Go: a new pointer, distinct from
every existing one). -/
def heapCopy (h : AggHeap) (i : Nat) : Option (AggHeap × Nat) :=
  (h.get? i).map fun s => (h ++ [s.Copy], h.length)

/-- `AddTuple` through the pointer at `i`: mutates that cell in place
(or `none` on the panic of `AggState.AddTuple`). -/
def heapAddTuple (h : AggHeap) (i : Nat) (t : Tuple) : Option AggHeap :=
  (h.get? i).bind fun s => (s.AddTuple t).map fun s2 => h.set i s2

/-- Folding a sequence of `AddTuple` calls through the pointer at `i`. -/
def heapFold (i : Nat) : AggHeap → List Tuple → Option AggHeap
  | h, [] => some h
  | h, t :: ts =>
    match heapAddTuple h i t with
    | none => none
    | some h2 => heapFold i h2 ts

theorem heapAddTuple_frame {h h2 : AggHeap} {i k : Nat} {t : Tuple}
    (hne : i ≠ k) (hstep : heapAddTuple h k t = some h2) :
    h2.get? i = h.get? i := by
  unfold heapAddTuple at hstep
  cases hk : h.get? k with
  | none => rw [hk] at hstep; simp at hstep
  | some s =>
    rw [hk] at hstep
    simp only [Option.some_bind] at hstep
    cases ha : s.AddTuple t with
    | none => rw [ha] at hstep; simp at hstep
    | some s2 =>
      rw [ha] at hstep
      simp at hstep
      rw [← hstep]
      simp only [List.get?_eq_getElem?]
      exact List.getElem?_set_ne (fun e => hne e.symm)

theorem heapFold_frame {i k : Nat} (hne : i ≠ k) :
    ∀ {h h2 : AggHeap} (ts : List Tuple), heapFold k h ts = some h2 →
    h2.get? i = h.get? i := by
  intro h h2 ts
  induction ts generalizing h with
  | nil => intro he; unfold heapFold at he; exact congrArg (fun l => List.get? l i) (Option.some.inj he).symm
  | cons t ts ih =>
    intro he
    unfold heapFold at he
    cases hs : heapAddTuple h k t with
    | none => rw [hs] at he; simp at he
    | some hmid =>
      rw [hs] at he
      rw [ih he]
      exact heapAddTuple_frame hne hs

/-! ## Aggregator (`src/godb/agg_op.go`)

`groupByFields` is a nil-able slice (`none` = no grouping, as built by
`NewAggregator`; `some` = grouped, as built by `NewGroupedAggregator`);
`newAggState` is the list of accumulator templates.  The group map
`aggState map[any]*[]AggState` is modelled as an association list keyed
by `tupleKey` (the map is only ever read through keys, never iterated,
so association-list lookup is an exact model); `groupByList` is the
auxiliary first-seen list of group key tuples. -/

structure Aggregator where
  groupByFields : Option (List Expr)
  newAggState : List AggState

/-- `extractGroupByKeyTuple` (agg_op.go lines 180-203): evaluate every
group-by expression against `t`, fail on the first error, and build the
key tuple whose descriptor takes each expression's name and type. -/
def evalKeyFields : List Expr → Tuple → Except String (List DBValue × List FieldType)
  | [], _ => .ok ([], [])
  | e :: rest, t =>
    match e.EvalExpr (some t) with
    | .error err => .error err
    | .ok v =>
      match evalKeyFields rest t with
      | .error err => .error err
      | .ok (vs, fs) => .ok (v :: vs, ⟨e.GetExprType.Fname, "", e.GetExprType.Ftype⟩ :: fs)

def extractGroupByKeyTuple (gs : List Expr) (t : Tuple) : Except String Tuple :=
  (evalKeyFields gs t).map fun p => ⟨⟨p.2⟩, p.1⟩

/-- Association-list lookup standing for `aggState[key]`. -/
def lookupGroup (m : List (List DBValue × List (Option AggState)))
    (k : List DBValue) : Option (List (Option AggState)) :=
  (m.find? fun p => decide (p.1 = k)).map Prod.snd

/-- Store a slot under a key: replace the first binding of `k`, or bind
`k` fresh at the end (`aggState[key] = ...`). -/
def setGroup : List (List DBValue × List (Option AggState)) → List DBValue →
    List (Option AggState) → List (List DBValue × List (Option AggState))
  | [], k, s => [(k, s)]
  | (k0, s0) :: rest, k, s =>
    if k0 = k then (k0, s) :: rest else (k0, s0) :: setGroup rest k s

/-- `addTupleToGrpAggState` (agg_op.go lines 211-221): walk the group's
slot; a nil entry is first filled with a `Copy` of the matching
template (`none` when the template index would be out of range — the Go
code would panic there, though slots always have template length);
every entry then folds in `t` via `AddTuple`. -/
def addSlot (t : Tuple) : List (Option AggState) → List AggState →
    Option (List (Option AggState))
  | [], _ => some []
  | none :: _, [] => none
  | none :: srest, tmpl :: trest =>
    match (AggState.Copy tmpl).AddTuple t with
    | none => none
    | some st2 => (addSlot t srest trest).map fun l => some st2 :: l
  | some st :: srest, trem =>
    match st.AddTuple t with
    | none => none
    | some st2 => (addSlot t srest trem.tail).map fun l => some st2 :: l

/-- The mutable group state captured by the iterator closure. -/
structure AggRun where
  aggState : List (List DBValue × List (Option AggState))
  groupByList : List Tuple

/-- Result of draining child tuples into the group state: a Go panic,
an expression-evaluation failure surfaced with the partially advanced
state (the closure keeps its partial accumulation and the child
iterator stays advanced past the failing tuple), or completion. -/
inductive DrainRes where
  | panic
  | fail (e : String) (rest : List Tuple) (run : AggRun)
  | ok (run : AggRun)

/-- The grouped branch of the child-drain loop in `Aggregator.Iterator`
(agg_op.go lines 127-154): per tuple, build the group key tuple
(errors propagate), open a fresh all-nil slot and record the key tuple
on first sight, then fold the tuple into the group's slot.  (The
`t == nil` return inside the loop body is unreachable — the loop guard
plus the error return already exclude it — and is not modelled.) -/
def aggDrainGrouped (gs : List Expr) (templates : List AggState) :
    List Tuple → AggRun → DrainRes
  | [], run => .ok run
  | t :: ts, run =>
    match extractGroupByKeyTuple gs t with
    | .error e => .fail e ts run
    | .ok keygenTup =>
      let key := keygenTup.tupleKey
      match lookupGroup run.aggState key with
      | none =>
        match addSlot t (List.replicate templates.length none) templates with
        | none => .panic
        | some slot2 =>
          aggDrainGrouped gs templates ts
            ⟨setGroup run.aggState key slot2, run.groupByList ++ [keygenTup]⟩
      | some slot =>
        match addSlot t slot templates with
        | none => .panic
        | some slot2 =>
          aggDrainGrouped gs templates ts ⟨setGroup run.aggState key slot2, run.groupByList⟩

/-- Fold one tuple into every no-group accumulator. -/
def addAll : List AggState → Tuple → Option (List AggState)
  | [], _ => some []
  | s :: rest, t =>
    match s.AddTuple t with
    | none => none
    | some s2 => (addAll rest t).map fun l => s2 :: l

/-- The no-group branch of the child-drain loop: fold every child tuple
into the single accumulator array (`AddTuple` itself never surfaces an
error, so only panics can interrupt). -/
def aggDrainNG : List AggState → List Tuple → Option (List AggState)
  | states, [] => some states
  | states, t :: ts =>
    match addAll states t with
    | none => none
    | some states2 => aggDrainNG states2 ts

/-- No-group finalization (agg_op.go lines 157-164): start from a nil
tuple and `joinTuples` every accumulator's `Finalize` result onto it
(`none` exactly when there are no accumulators, which the source then
returns as the `(nil, nil)` exhaustion signal). -/
def aggFinalizeNG (states : List AggState) : Option Tuple :=
  states.foldl (fun acc s => joinTuples acc (some s.Finalize)) none

/-- The per-group fold of `getFinalizedTuplesIterator` (agg_op.go lines
246-257): `resultTuple` starts nil; the first accumulator joins onto
the group-by tuple, later ones onto the running result.  A nil slot
entry would be a Go nil-interface call: `none`. -/
def groupResFold (keyTup : Tuple) : Option Tuple → List (Option AggState) →
    Option (Option Tuple)
  | acc, [] => some acc
  | _, none :: _ => none
  | acc, some st :: rest =>
    match acc with
    | none => groupResFold keyTup (joinTuples (some keyTup) (some st.Finalize)) rest
    | some r => groupResFold keyTup (joinTuples (some r) (some st.Finalize)) rest

/-- One step of `getFinalizedTuplesIterator` at position `i`: past the
group list it reports `(nil, nil)`; otherwise it finalizes the group of
the i-th first-seen key tuple (a missing map entry or nil slot entry is
a Go panic). -/
def finalizedStep (run : AggRun) (i : Nat) : Option (PullRes × Nat) :=
  match run.groupByList.get? i with
  | none => some ((none, none), i)
  | some keyTup =>
    match lookupGroup run.aggState keyTup.tupleKey with
    | none => none
    | some slot =>
      match groupResFold keyTup none slot with
      | none => none
      | some res => some ((res, none), i + 1)

/-- The closure state of `Aggregator.Iterator`: the not-yet-consumed
child stream, the no-group accumulator array, the group state, whether
the finalized iterator has been built, and its position. -/
structure AggIterSt where
  childRem : List Tuple
  ngState : List AggState
  run : AggRun
  finBuilt : Bool
  finIdx : Nat

/-- `Aggregator.Iterator` construction (agg_op.go lines 95-124): for
no-group-by, one accumulator array is copied from the templates up
front; the group state starts empty.  (The nil-child and nil-copy
defensive checks cannot fire in the model.) -/
def aggInit (a : Aggregator) (child : List Tuple) : AggIterSt :=
  match a.groupByFields with
  | none => ⟨child, a.newAggState.map AggState.Copy, ⟨[], []⟩, false, 0⟩
  | some _ => ⟨child, [], ⟨[], []⟩, false, 0⟩

/-- One call to the pull closure of `Aggregator.Iterator` (agg_op.go
lines 125-170): first the drain loop runs over whatever the child still
yields; then, on first arrival, the finalized results are built — for
no-group-by the single result tuple is returned directly and later
pulls report `(nil, nil)`; for group-by every pull (first included)
steps the finalized-tuples iterator.  `none` models a Go panic. -/
def aggPull (a : Aggregator) (s : AggIterSt) : Option (PullRes × AggIterSt) :=
  match a.groupByFields with
  | none =>
    match aggDrainNG s.ngState s.childRem with
    | none => none
    | some ng2 =>
      if s.finBuilt then
        some ((none, none), ⟨[], ng2, s.run, true, s.finIdx⟩)
      else
        some ((aggFinalizeNG ng2, none), ⟨[], ng2, s.run, true, s.finIdx⟩)
  | some gs =>
    match aggDrainGrouped gs a.newAggState s.childRem s.run with
    | .panic => none
    | .fail e rest run2 =>
      some ((none, some (.msg e)), ⟨rest, s.ngState, run2, s.finBuilt, s.finIdx⟩)
    | .ok run2 =>
      match finalizedStep run2 s.finIdx with
      | none => none
      | some (r, i2) => some (r, ⟨[], s.ngState, run2, true, i2⟩)

/-! ### Traces of a panicking pull machine

Same trace apparatus as `Emits`, for pulls that may panic (`none`): a
panic ends the trace. -/

def opullN {σ : Type} (pull : σ → Option (PullRes × σ)) :
    Nat → σ → List (Option PullRes)
  | 0, _ => []
  | n + 1, s =>
    match pull s with
    | none => [none]
    | some (r, s2) => some r :: opullN pull n s2

def OSilent {σ : Type} (pull : σ → Option (PullRes × σ)) (s : σ) : Prop :=
  ∀ n : Nat, ∀ r ∈ opullN pull n s,
    r = some ((none : Option Tuple), (none : Option Err))

inductive OEmits {σ : Type} (pull : σ → Option (PullRes × σ)) : σ → List Tuple → Prop
  | done {s : σ} : OSilent pull s → OEmits pull s []
  | step {s s2 : σ} {t : Tuple} {L : List Tuple} :
      pull s = some ((some t, none), s2) → OEmits pull s2 L → OEmits pull s (t :: L)

theorem osilent_of_invariant {σ : Type} {pull : σ → Option (PullRes × σ)} (P : σ → Prop)
    (hstep : ∀ s, P s → ∃ s2, pull s = some (((none : Option Tuple), (none : Option Err)), s2) ∧ P s2)
    {s : σ} (hs : P s) : OSilent pull s := by
  intro n
  induction n generalizing s with
  | zero => intro r hr; simp [opullN] at hr
  | succ n ih =>
    intro r hr
    obtain ⟨s2, hp, hs2⟩ := hstep s hs
    rw [opullN, hp] at hr
    rcases List.mem_cons.mp hr with h | h
    · exact h
    · exact ih hs2 r h

/-! ## EqualityJoin (`src/godb/join_op.go`)

Nested-loop join: the pull closure holds the current left tuple; the
right child is re-opened (reset to its full tuple list) for every new
left tuple.  `maxBufferSize` is an advisory knob the nested-loop
implementation never reads. -/

structure EqualityJoin where
  leftField : Expr
  rightField : Expr
  maxBufferSize : Nat

/-- The closure state: current outer tuple (`leftTuple`), tuples the
left child has not yet produced, and the remaining suffix of the
current right scan. -/
structure JoinSt where
  leftTuple : Option Tuple
  remLeft : List Tuple
  remRight : List Tuple

/-- One call of the join's pull closure (join_op.go lines 58-106),
with `rs` the full right child (used whenever the right iterator is
re-opened).  The inner `for` loop advances until it can return: the
next match, an evaluation error (the right iterator having consumed
the tuple that was being tested), or `(nil, nil)` when the left child
is exhausted. -/
def joinPull (j : EqualityJoin) (rs : List Tuple) : JoinSt → PullRes × JoinSt
  | ⟨none, [], remR⟩ => ((none, none), ⟨none, [], remR⟩)
  | ⟨none, l :: ls, _⟩ => joinPull j rs ⟨some l, ls, rs⟩
  | ⟨some _, ls, []⟩ => joinPull j rs ⟨none, ls, []⟩
  | ⟨some l, ls, r :: rs2⟩ =>
    match j.leftField.EvalExpr (some l) with
    | .error e => ((none, some (.msg e)), ⟨some l, ls, rs2⟩)
    | .ok lv =>
      match j.rightField.EvalExpr (some r) with
      | .error e => ((none, some (.msg e)), ⟨some l, ls, rs2⟩)
      | .ok rv =>
        if lv = rv then ((some (tupleConcat l r), none), ⟨some l, ls, rs2⟩)
        else joinPull j rs ⟨some l, ls, rs2⟩
termination_by s => (s.remLeft.length, if s.leftTuple.isSome then s.remRight.length + 1 else 0)
decreasing_by
  all_goals simp_all
  all_goals omega

/-- The state `EqualityJoin.Iterator` starts from: no left tuple yet,
the whole left child pending.  (The right iterator opened during
construction is replaced before it is ever pulled.) -/
def joinInit (ls rs : List Tuple) : JoinSt :=
  ⟨none, ls, rs⟩

/-! ## Limit (`src/godb/limit_op.go`) -/

structure LimitOp where
  limitTups : Expr

/-- The closure state: the limit value, how many times the closure has
advanced (`count`), and the pending child tuples. -/
structure LimitSt where
  limit : Int
  count : Nat
  rem : List Tuple

/-- `LimitOp.Iterator` construction (limit_op.go lines 31-55): the
limit expression is evaluated once, against no input row, before the
child is opened; a non-integer or negative result fails construction. -/
def LimitOp.Iterator (l : LimitOp) (child : List Tuple) : Except Err LimitSt :=
  match l.limitTups.EvalExpr none with
  | .error e => .error (.msg ("error evaluating limit expression: " ++ e))
  | .ok (.StringField _) => .error (.msg "limit expression did not evaluate to an integer")
  | .ok (.IntField n) =>
    if n < 0 then .error (.msg "limit value cannot be negative")
    else .ok ⟨n, 0, child⟩

/-- One call of the limit pull closure (limit_op.go lines 57-67): at or
beyond the limit it reports `(nil, nil)`; otherwise it forwards the
child's next answer unchanged, incrementing `count` (also when the
child answered with its own `(nil, nil)` exhaustion signal). -/
def limitPull (s : LimitSt) : PullRes × LimitSt :=
  if s.limit ≤ (s.count : Int) then ((none, none), s)
  else
    match s.rem with
    | [] => ((none, none), ⟨s.limit, s.count + 1, []⟩)
    | t :: ts => ((some t, none), ⟨s.limit, s.count + 1, ts⟩)

/-! ## InsertOp (`src/godb/insert_op.go`) and DeleteOp (`src/unnamed/part_000`)

The storage collaborator (`DBFile`, external) is modelled by the
outcome of its mutation call per tuple: `none` = success, `some e` =
the storage error with message `e`.  The stored contents are not
observed by any claim. -/

structure InsertSt where
  returned : Bool
  count : Int
  rem : List Tuple

def insertDescriptor : TupleDesc := ⟨[⟨"count", "", .IntType⟩]⟩

/-- The drain loop of `InsertOp.Iterator` (insert_op.go lines 49-79):
insert child tuples one by one; a storage failure returns immediately,
wrapped by `fmt.Errorf` into a new "failed to insert tuple:" error,
with `returned` still false and the failing tuple consumed; when the
child is exhausted the accumulated count is emitted once. -/
def insertDrain (f : Tuple → Option String) : Int → List Tuple → PullRes × InsertSt
  | count, [] => ((some ⟨insertDescriptor, [.IntField count]⟩, none), ⟨true, count, []⟩)
  | count, t :: ts =>
    match f t with
    | some e => ((none, some (.msg ("failed to insert tuple: " ++ e))), ⟨false, count, ts⟩)
    | none => insertDrain f (count + 1) ts

/-- One call of the insert pull closure: after the count tuple has been
returned, every call reports `(nil, nil)`. -/
def insertPull (f : Tuple → Option String) (s : InsertSt) : PullRes × InsertSt :=
  if s.returned then ((none, none), s)
  else insertDrain f s.count s.rem

def deleteDescriptor : TupleDesc := ⟨[⟨"count", "", .IntType⟩]⟩

/-- The drain loop of `DeleteOp.Iterator` (part_000 lines 51-81),
identical to the insert drain up to the wrapped message. -/
def deleteDrain (f : Tuple → Option String) : Int → List Tuple → PullRes × InsertSt
  | count, [] => ((some ⟨deleteDescriptor, [.IntField count]⟩, none), ⟨true, count, []⟩)
  | count, t :: ts =>
    match f t with
    | some e => ((none, some (.msg ("failed to delete tuple: " ++ e))), ⟨false, count, ts⟩)
    | none => deleteDrain f (count + 1) ts

/-- One call of the delete pull closure. -/
def deletePull (f : Tuple → Option String) (s : InsertSt) : PullRes × InsertSt :=
  if s.returned then ((none, none), s)
  else deleteDrain f s.count s.rem

/-! ## Filter (`src/godb/filter_op.go`) and Project (`src/unnamed/part_000`) -/

/-- Filter operator.  `pred` is modelled from the spec: it stands for
`DBValue.EvalPred` applied with the operator's fixed `BoolOp`
(`types.go` is not under `src/`; per §4.2 it is the relational
predicate deciding whether the evaluated pair passes).  The source
names this struct `Filter`, a name Mathlib occupies. -/
structure FilterOp where
  left : Expr
  right : Expr
  pred : DBValue → DBValue → Bool

/-- One call of the filter pull closure (filter_op.go lines 30-58):
skip child tuples failing the predicate, forward the first that
passes; child exhaustion and evaluation errors pass through. -/
def filterPull (f : FilterOp) : List Tuple → PullRes × List Tuple
  | [] => ((none, none), [])
  | t :: ts =>
    match f.left.EvalExpr (some t) with
    | .error e => ((none, some (.msg e)), ts)
    | .ok lv =>
      match f.right.EvalExpr (some t) with
      | .error e => ((none, some (.msg e)), ts)
      | .ok rv =>
        if f.pred lv rv then ((some t, none), ts)
        else filterPull f ts

structure Project where
  selectFields : List Expr
  outputNames : List String
  distinct : Bool

/-- `Project.Descriptor` (part_000 lines 124-134): one field per select
expression, named by the matching output name, typed by the
expression's static type. -/
def Project.Descriptor (p : Project) : TupleDesc :=
  ⟨(p.selectFields.zip p.outputNames).map fun q => ⟨q.2, "", q.1.GetExprType.Ftype⟩⟩

/-- Evaluate every select expression against one tuple, failing on the
first error (part_000 lines 161-168). -/
def evalAllExprs : List Expr → Tuple → Except String (List DBValue)
  | [], _ => .ok []
  | e :: rest, t =>
    match e.EvalExpr (some t) with
    | .error err => .error err
    | .ok v =>
      match evalAllExprs rest t with
      | .error err => .error err
      | .ok vs => .ok (v :: vs)

/-- One call of the project pull closure (part_000 lines 150-187); the
second state component is the distinct set, keyed by the projected
tuple's value key. -/
def projectPull (p : Project) :
    List Tuple × List (List DBValue) → PullRes × (List Tuple × List (List DBValue))
  | ([], seen) => ((none, none), ([], seen))
  | (t :: ts, seen) =>
    match evalAllExprs p.selectFields t with
    | .error e => ((none, some (.msg e)), (ts, seen))
    | .ok vals =>
      let pt : Tuple := ⟨p.Descriptor, vals⟩
      if p.distinct then
        if pt.tupleKey ∈ seen then projectPull p (ts, seen)
        else ((some pt, none), (ts, pt.tupleKey :: seen))
      else ((some pt, none), (ts, seen))

/-- The pull protocol of the godb `OrderBy` sibling
(`src/godb/order_by_op.go`): identical buffered streaming, but
exhaustion is signalled with the error value `io.EOF` instead of a nil
tuple.  (Only the iterator protocol of this sibling is modelled: its
comparator reads a field its struct does not declare, so the file as
shown cannot compile as Go; the claims touching it concern only its
exhaustion signalling.) -/
def godbOrderByPull : List Tuple → PullRes × List Tuple := listPullEOF

/-! ## Concrete expressions and tuples used as inputs -/

def constIntExpr (n : Int) : Expr :=
  ⟨fun _ => .ok (.IntField n), ⟨"const", "", .IntType⟩⟩

def constStrExpr (s : String) : Expr :=
  ⟨fun _ => .ok (.StringField s), ⟨"const", "", .StringType⟩⟩

def failingExpr : Expr :=
  ⟨fun _ => .error "boom", ⟨"bad", "", .IntType⟩⟩

/-- A field-access expression: value of field `i`, with declared type
`ty`. -/
def fieldExpr (i : Nat) (ty : DBType) : Expr :=
  ⟨fun ot =>
    match ot with
    | none => .error "nil tuple"
    | some t =>
      match t.Fields.get? i with
      | none => .error "no such field"
      | some v => .ok v,
   ⟨"field", "", ty⟩⟩

def intTuple (n : Int) : Tuple :=
  ⟨⟨[⟨"x", "", .IntType⟩]⟩, [.IntField n]⟩

def strIntTuple (s : String) (n : Int) : Tuple :=
  ⟨⟨[⟨"g", "", .StringType⟩, ⟨"v", "", .IntType⟩]⟩, [.StringField s, .IntField n]⟩

def intStrTuple (n : Int) (s : String) : Tuple :=
  ⟨⟨[⟨"k", "", .IntType⟩, ⟨"s", "", .StringType⟩]⟩, [.IntField n, .StringField s]⟩

/-- C1: the pull functions do NOT share one exhaustion signal: at
end-of-stream the godb `OrderBy` answers `(nil, io.EOF)` — an error
value — while the part_001 `OrderBy`, `LimitOp`, `EqualityJoin`,
`Aggregator`, `InsertOp` and `DeleteOp` answer `(nil, nil)`.  This
theorem evaluates every operator's pull at an exhausted stream and
records that the two conventions differ, refuting the uniformity the
claim (and the spec's mandated resolution) states; the spec itself
flags the inconsistency as a latent defect (§9). -/
theorem claim_C1_exhaustion_signals :
    (godbOrderByPull []).1 = ((none : Option Tuple), some Err.ioEOF)
    ∧ (listPull []).1 = ((none : Option Tuple), (none : Option Err))
    ∧ (limitPull ⟨0, 0, []⟩).1 = ((none : Option Tuple), (none : Option Err))
    ∧ (joinPull ⟨constIntExpr 0, constIntExpr 0, 0⟩ [] (joinInit [] [])).1
        = ((none : Option Tuple), (none : Option Err))
    ∧ (aggPull ⟨some [constIntExpr 0], []⟩ (aggInit ⟨some [constIntExpr 0], []⟩ [])).map
        (fun p => p.1) = some ((none : Option Tuple), (none : Option Err))
    ∧ (insertPull (fun _ => none) ⟨true, 0, []⟩).1
        = ((none : Option Tuple), (none : Option Err))
    ∧ (deletePull (fun _ => none) ⟨true, 0, []⟩).1
        = ((none : Option Tuple), (none : Option Err))
    ∧ (godbOrderByPull []).1 ≠ (listPull []).1 := by
  refine ⟨rfl, rfl, rfl, ?_, rfl, rfl, rfl, ?_⟩
  · simp [joinInit, joinPull]
  · simp [godbOrderByPull, listPullEOF, listPull]

/-- C2: refuted at the source.  A `SumAggState` whose governing
expression fails to evaluate discards the error inside `AddTuple`
(prints and continues, accumulator unchanged, no error reaches any
caller), and `InsertOp`/`DeleteOp` rewrap a storage failure in a fresh
`fmt.Errorf` value instead of passing it unchanged.  Both contradict
the claim's (and §7/§9's) propagate-unchanged policy. -/
theorem claim_C2_error_propagation_violated :
    (initSumAggState "sum" failingExpr).AddTuple (intTuple 1)
        = some (initSumAggState "sum" failingExpr)
    ∧ insertPull (fun _ => some "disk full") ⟨false, 0, [intTuple 1]⟩
        = ((none, some (.msg "failed to insert tuple: disk full")), ⟨false, 0, []⟩)
    ∧ deletePull (fun _ => some "disk full") ⟨false, 0, [intTuple 1]⟩
        = ((none, some (.msg "failed to delete tuple: disk full")), ⟨false, 0, []⟩)
    ∧ (Err.msg "failed to insert tuple: disk full" ≠ Err.msg "disk full") := by
  refine ⟨rfl, rfl, rfl, ?_⟩
  decide

/-! ### Limit trace lemmas -/

theorem limitPull_silent_done {n : Int} {c : Nat} {ts : List Tuple}
    (h : n ≤ (c : Int)) : Silent limitPull ⟨n, c, ts⟩ := by
  apply silent_of_invariant (fun s => s.limit ≤ (s.count : Int))
  · rintro ⟨m, c2, ts2⟩ hc
    simp only at hc
    have heq : limitPull ⟨m, c2, ts2⟩ = ((none, none), ⟨m, c2, ts2⟩) := by
      simp [limitPull, if_pos hc]
    rw [heq]
    exact ⟨rfl, hc⟩
  · exact h

theorem limitPull_silent_empty {n : Int} {c : Nat} : Silent limitPull ⟨n, c, []⟩ := by
  apply silent_of_invariant (fun s => s.rem = [])
  · rintro ⟨m, c2, ts2⟩ h
    simp only at h
    subst h
    by_cases hc : m ≤ (c2 : Int)
    · simp [limitPull, if_pos hc]
    · simp [limitPull, if_neg hc]
  · rfl

theorem limitPull_emits : ∀ (ts : List Tuple) (n : Int) (c : Nat),
    Emits limitPull ⟨n, c, ts⟩ (ts.take (n - c).toNat)
  | [], n, c => by
    rw [List.take_nil]
    exact .done limitPull_silent_empty
  | t :: ts, n, c => by
    by_cases hc : n ≤ (c : Int)
    · rw [show (n - c).toNat = 0 by omega, List.take_zero]
      exact .done (limitPull_silent_done hc)
    · have hstep : limitPull ⟨n, c, t :: ts⟩ = ((some t, none), ⟨n, c + 1, ts⟩) := by
        simp [limitPull, if_neg hc]
      have ih := limitPull_emits ts n (c + 1)
      rw [show (n - c).toNat = (n - (c + 1)).toNat + 1 by omega]
      rw [List.take_succ_cons]
      exact .step hstep ih

/-- C7: Limit evaluates its limit expression once at `Iterator` time
against the nil tuple, before the child is touched; a non-integer or
negative value fails construction; with value `n ≥ 0` the stream is
the first `n` child tuples unchanged (so its length is
`min n (child length)`), and `n = 0` is exhausted from the first pull. -/
theorem claim_C7_limit (lim : LimitOp) (child : List Tuple) :
    (∀ e, lim.limitTups.EvalExpr none = .error e →
      lim.Iterator child = .error (.msg ("error evaluating limit expression: " ++ e)))
    ∧ (∀ s, lim.limitTups.EvalExpr none = .ok (.StringField s) →
      lim.Iterator child = .error (.msg "limit expression did not evaluate to an integer"))
    ∧ (∀ n : Int, lim.limitTups.EvalExpr none = .ok (.IntField n) → n < 0 →
      lim.Iterator child = .error (.msg "limit value cannot be negative"))
    ∧ (∀ n : Int, lim.limitTups.EvalExpr none = .ok (.IntField n) → 0 ≤ n →
      lim.Iterator child = .ok ⟨n, 0, child⟩
      ∧ Emits limitPull ⟨n, 0, child⟩ (child.take n.toNat)
      ∧ (child.take n.toNat).length = min n.toNat child.length
      ∧ (n = 0 → child.take n.toNat = [])) := by
  refine ⟨?_, ?_, ?_, ?_⟩
  · intro e he; simp [LimitOp.Iterator, he]
  · intro s hs; simp [LimitOp.Iterator, hs]
  · intro n hn hneg; simp [LimitOp.Iterator, hn, if_pos hneg]
  · intro n hn hpos
    refine ⟨by simp [LimitOp.Iterator, hn, if_neg (by omega : ¬ n < 0)], ?_, ?_, ?_⟩
    · have := limitPull_emits child n 0
      simpa using this
    · simp [List.length_take]
    · rintro rfl; simp

/-- Witness for C7 at limit expression `const 2` over a three-tuple
child. -/
theorem claim_C7_limit_witness :
    LimitOp.Iterator ⟨constIntExpr 2⟩ [intTuple 7, intTuple 8, intTuple 9]
        = .ok ⟨2, 0, [intTuple 7, intTuple 8, intTuple 9]⟩
    ∧ Emits limitPull ⟨2, 0, [intTuple 7, intTuple 8, intTuple 9]⟩
        [intTuple 7, intTuple 8] := by
  have h := (claim_C7_limit ⟨constIntExpr 2⟩ [intTuple 7, intTuple 8, intTuple 9]).2.2.2
    2 rfl (by omega)
  refine ⟨h.1, ?_⟩
  have h2 := h.2.1
  simpa using h2

/-! ### Join trace lemmas -/

theorem Silent_of_pull_eq {σ : Type} {pull : σ → PullRes × σ} {s s2 : σ}
    (h : pull s = pull s2) (hs : Silent pull s2) : Silent pull s := by
  intro n
  cases n with
  | zero => intro r hr; simp [pullN] at hr
  | succ n =>
    intro r hr
    rw [pullN, h] at hr
    exact hs (n + 1) r (by rw [pullN]; exact hr)

theorem Emits_of_pull_eq {σ : Type} {pull : σ → PullRes × σ} {s s2 : σ} {L : List Tuple}
    (h : pull s = pull s2) (he : Emits pull s2 L) : Emits pull s L := by
  cases he with
  | done hsil => exact .done (Silent_of_pull_eq h hsil)
  | step hp hrest => exact .step (h.trans hp) hrest

/-- The pair a left and a right tuple contribute to the join output:
their key expressions evaluate to equal values. -/
def joinMatch (j : EqualityJoin) (l r : Tuple) : Option Tuple :=
  match j.leftField.EvalExpr (some l), j.rightField.EvalExpr (some r) with
  | .ok lv, .ok rv => if lv = rv then some (tupleConcat l r) else none
  | _, _ => none

/-- The complete expected output of the nested-loop join: left-major
order, every matching pair, no other pair. -/
def joinExpected (j : EqualityJoin) (ls rs : List Tuple) : List Tuple :=
  ls.flatMap fun l => rs.filterMap (joinMatch j l)

theorem joinPull_silent_done {j : EqualityJoin} {rs remR : List Tuple} :
    Silent (joinPull j rs) ⟨none, [], remR⟩ := by
  apply silent_of_invariant (fun s => s.leftTuple = none ∧ s.remLeft = [])
  · rintro ⟨lt, remL, remR2⟩ ⟨h1, h2⟩
    simp only at h1 h2
    subst h1; subst h2
    constructor
    · simp [joinPull]
    · simp [joinPull]
  · exact ⟨rfl, rfl⟩

theorem joinPull_emits_scan {j : EqualityJoin} {rs : List Tuple} {ls : List Tuple}
    {K : List Tuple}
    (hcont : ∀ remR0 : List Tuple, Emits (joinPull j rs) ⟨none, ls, remR0⟩ K) :
    ∀ (remR : List Tuple) (l : Tuple),
    (∃ lv, j.leftField.EvalExpr (some l) = .ok lv) →
    (∀ r ∈ remR, ∃ rv, j.rightField.EvalExpr (some r) = .ok rv) →
    Emits (joinPull j rs) ⟨some l, ls, remR⟩ (remR.filterMap (joinMatch j l) ++ K)
  | [], l, _, _ => by
    rw [List.filterMap_nil, List.nil_append]
    exact Emits_of_pull_eq (by rw [joinPull]) (hcont [])
  | r :: remR, l, hl, hr => by
    obtain ⟨lv, hlv⟩ := hl
    obtain ⟨rv, hrv⟩ := hr r (List.mem_cons_self _ _)
    have ih := joinPull_emits_scan hcont remR l ⟨lv, hlv⟩
      (fun r2 h2 => hr r2 (List.mem_cons_of_mem _ h2))
    rw [List.filterMap_cons]
    by_cases hevq : lv = rv
    · have hm : joinMatch j l r = some (tupleConcat l r) := by
        simp [joinMatch, hlv, hrv, if_pos hevq]
      rw [hm]
      have hstep : joinPull j rs ⟨some l, ls, r :: remR⟩
          = ((some (tupleConcat l r), none), ⟨some l, ls, remR⟩) := by
        rw [joinPull]
        simp [hlv, hrv, if_pos hevq]
      exact .step hstep ih
    · have hm : joinMatch j l r = none := by
        simp [joinMatch, hlv, hrv, if_neg hevq]
      rw [hm]
      have hstep : joinPull j rs ⟨some l, ls, r :: remR⟩
          = joinPull j rs ⟨some l, ls, remR⟩ := by
        conv_lhs => rw [joinPull]
        simp [hlv, hrv, if_neg hevq]
      exact Emits_of_pull_eq hstep ih

theorem joinPull_emits {j : EqualityJoin} {rs : List Tuple}
    (hrs : ∀ r ∈ rs, ∃ rv, j.rightField.EvalExpr (some r) = .ok rv) :
    ∀ (ls : List Tuple),
    (∀ l ∈ ls, ∃ lv, j.leftField.EvalExpr (some l) = .ok lv) →
    ∀ remR : List Tuple,
    Emits (joinPull j rs) ⟨none, ls, remR⟩ (joinExpected j ls rs)
  | [], _, remR => .done joinPull_silent_done
  | l :: ls, hls, remR => by
    have hcont := joinPull_emits hrs ls
      (fun l2 h2 => hls l2 (List.mem_cons_of_mem _ h2))
    have hscan := joinPull_emits_scan hcont rs l
      (hls l (List.mem_cons_self _ _)) (fun r h => hrs r h)
    have hpeq : joinPull j rs ⟨none, l :: ls, remR⟩ = joinPull j rs ⟨some l, ls, rs⟩ := by
      conv_lhs => rw [joinPull]
    have : joinExpected j (l :: ls) rs
        = rs.filterMap (joinMatch j l) ++ joinExpected j ls rs := by
      simp [joinExpected]
    rw [this]
    exact Emits_of_pull_eq hpeq hscan

/-- C6: for children whose join-key expressions all evaluate, the
nested-loop `EqualityJoin` emits exactly the concatenations
`left ++ right` of the value-equal key pairs — `joinExpected`, the
left-major list of all matching pairs, with no spurious and no missing
pair. -/
theorem claim_C6_join (j : EqualityJoin) (ls rs : List Tuple)
    (hls : ∀ l ∈ ls, ∃ lv, j.leftField.EvalExpr (some l) = .ok lv)
    (hrs : ∀ r ∈ rs, ∃ rv, j.rightField.EvalExpr (some r) = .ok rv) :
    Emits (joinPull j rs) (joinInit ls rs) (joinExpected j ls rs) :=
  joinPull_emits hrs ls hls rs

/-- Witness for C6: the spec §8 example — left (1,x),(2,y), right
(1,p),(1,q),(3,r), keyed on the first field — yields exactly
(1,x,1,p),(1,x,1,q). -/
theorem claim_C6_join_witness :
    Emits
      (joinPull ⟨fieldExpr 0 .IntType, fieldExpr 0 .IntType, 0⟩
        [intStrTuple 1 "p", intStrTuple 1 "q", intStrTuple 3 "r"])
      (joinInit [intStrTuple 1 "x", intStrTuple 2 "y"]
        [intStrTuple 1 "p", intStrTuple 1 "q", intStrTuple 3 "r"])
      [tupleConcat (intStrTuple 1 "x") (intStrTuple 1 "p"),
       tupleConcat (intStrTuple 1 "x") (intStrTuple 1 "q")] := by
  have h := claim_C6_join ⟨fieldExpr 0 .IntType, fieldExpr 0 .IntType, 0⟩
    [intStrTuple 1 "x", intStrTuple 2 "y"]
    [intStrTuple 1 "p", intStrTuple 1 "q", intStrTuple 3 "r"]
    (by intro l hl; fin_cases hl <;> exact ⟨_, rfl⟩)
    (by intro r hr; fin_cases hr <;> exact ⟨_, rfl⟩)
  simpa [joinExpected, joinMatch, fieldExpr, intStrTuple] using h

/-! ### Aggregator, no-group-by traces -/

theorem aggPull_ng_silent {a : Aggregator} (hng : a.groupByFields = none)
    {ng : List AggState} {run : AggRun} {i : Nat} :
    OSilent (aggPull a) ⟨[], ng, run, true, i⟩ := by
  apply osilent_of_invariant
    (fun s => s.childRem = [] ∧ s.finBuilt = true)
  · rintro ⟨rem, ng2, run2, b2, i2⟩ ⟨h1, h2⟩
    simp only at h1 h2
    subst h1; subst h2
    refine ⟨⟨[], ng2, run2, true, i2⟩, ?_, rfl, rfl⟩
    simp [aggPull, hng, aggDrainNG]
  · exact ⟨rfl, rfl⟩

/-- A no-group aggregator whose drain succeeds and finalizes to a
tuple emits exactly that one tuple. -/
theorem aggNG_emits_one {a : Aggregator} (hng : a.groupByFields = none)
    {ts : List Tuple} {final : List AggState} {res : Tuple}
    (hdrain : aggDrainNG (a.newAggState.map AggState.Copy) ts = some final)
    (hres : aggFinalizeNG final = some res) :
    OEmits (aggPull a) (aggInit a ts) [res] := by
  have hstep : aggPull a (aggInit a ts)
      = some ((some res, none), ⟨[], final, ⟨[], []⟩, true, 0⟩) := by
    simp [aggInit, hng, aggPull, hdrain, hres]
  exact OEmits.step hstep (OEmits.done (aggPull_ng_silent hng))

theorem aggDrainNG_count (al : String) (e : Expr) :
    ∀ (ts : List Tuple) (c : Int),
    aggDrainNG [.CountAggState al e c] ts = some [.CountAggState al e (c + ts.length)]
  | [], c => by simp [aggDrainNG]
  | t :: ts, c => by
    have ih := aggDrainNG_count al e ts (c + 1)
    show aggDrainNG [AggState.CountAggState al e (c + 1)] ts
        = some [AggState.CountAggState al e (c + (t :: ts).length)]
    rw [ih, show c + 1 + (ts.length : Int) = c + ((t :: ts).length : Int) by
      push_cast [List.length_cons]; omega]

/-- C5: with no group-by the Aggregator emits exactly one tuple:
COUNT over any `N`-tuple child is `N`; over the integers 3,5,2 SUM is
10, AVG is 3 (the integer-truncated mean), MAX is 5 and MIN is 2; MAX
over -3,-7 is -3, showing the extreme is seeded from the first tuple
rather than the zero default. -/
theorem claim_C5_aggregates :
    (∀ (al : String) (e : Expr) (ts : List Tuple),
      OEmits (aggPull ⟨none, [initCountAggState al e]⟩)
        (aggInit ⟨none, [initCountAggState al e]⟩ ts)
        [⟨⟨[⟨al, "", .IntType⟩]⟩, [.IntField ts.length]⟩])
    ∧ OEmits (aggPull ⟨none, [initSumAggState "sum" (fieldExpr 0 .IntType)]⟩)
        (aggInit ⟨none, [initSumAggState "sum" (fieldExpr 0 .IntType)]⟩
          [intTuple 3, intTuple 5, intTuple 2])
        [⟨⟨[⟨"sum", "", .IntType⟩]⟩, [.IntField 10]⟩]
    ∧ OEmits (aggPull ⟨none, [initAvgAggState "avg" (fieldExpr 0 .IntType)]⟩)
        (aggInit ⟨none, [initAvgAggState "avg" (fieldExpr 0 .IntType)]⟩
          [intTuple 3, intTuple 5, intTuple 2])
        [⟨⟨[⟨"avg", "", .IntType⟩]⟩, [.IntField 3]⟩]
    ∧ OEmits (aggPull ⟨none, [initMaxAggState "max" (fieldExpr 0 .IntType)]⟩)
        (aggInit ⟨none, [initMaxAggState "max" (fieldExpr 0 .IntType)]⟩
          [intTuple 3, intTuple 5, intTuple 2])
        [⟨⟨[⟨"max", "", .IntType⟩]⟩, [.IntField 5]⟩]
    ∧ OEmits (aggPull ⟨none, [initMinAggState "min" (fieldExpr 0 .IntType)]⟩)
        (aggInit ⟨none, [initMinAggState "min" (fieldExpr 0 .IntType)]⟩
          [intTuple 3, intTuple 5, intTuple 2])
        [⟨⟨[⟨"min", "", .IntType⟩]⟩, [.IntField 2]⟩]
    ∧ OEmits (aggPull ⟨none, [initMaxAggState "max" (fieldExpr 0 .IntType)]⟩)
        (aggInit ⟨none, [initMaxAggState "max" (fieldExpr 0 .IntType)]⟩
          [intTuple (-3), intTuple (-7)])
        [⟨⟨[⟨"max", "", .IntType⟩]⟩, [.IntField (-3)]⟩] := by
  refine ⟨?_, ?_, ?_, ?_, ?_, ?_⟩
  · intro al e ts
    have hd := aggDrainNG_count al e ts 0
    rw [zero_add] at hd
    exact aggNG_emits_one rfl hd rfl
  · exact aggNG_emits_one rfl rfl rfl
  · exact aggNG_emits_one rfl rfl rfl
  · exact aggNG_emits_one rfl rfl rfl
  · exact aggNG_emits_one rfl rfl rfl
  · exact aggNG_emits_one rfl rfl rfl

/-- C10: on an empty child a grouped Aggregator emits no tuple at all,
while a no-group Aggregator still emits exactly one tuple in which
Count, Sum, Max and Min all finalize to the numeric default 0 (no
input tuple contributed). -/
theorem claim_C10_empty_child :
    (∀ (gs : List Expr) (templates : List AggState),
      OEmits (aggPull ⟨some gs, templates⟩) (aggInit ⟨some gs, templates⟩ []) [])
    ∧ OEmits
        (aggPull ⟨none, [initCountAggState "c" (fieldExpr 0 .IntType),
          initSumAggState "s" (fieldExpr 0 .IntType),
          initMaxAggState "mx" (fieldExpr 0 .IntType),
          initMinAggState "mn" (fieldExpr 0 .IntType)]⟩)
        (aggInit ⟨none, [initCountAggState "c" (fieldExpr 0 .IntType),
          initSumAggState "s" (fieldExpr 0 .IntType),
          initMaxAggState "mx" (fieldExpr 0 .IntType),
          initMinAggState "mn" (fieldExpr 0 .IntType)]⟩ [])
        [⟨⟨[⟨"c", "", .IntType⟩, ⟨"s", "", .IntType⟩,
            ⟨"mx", "", .IntType⟩, ⟨"mn", "", .IntType⟩]⟩,
          [.IntField 0, .IntField 0, .IntField 0, .IntField 0]⟩] := by
  constructor
  · intro gs templates
    apply OEmits.done
    apply osilent_of_invariant
      (fun s => s.childRem = [] ∧ s.run.groupByList = [])
    · rintro ⟨rem, ng2, run2, b2, i2⟩ ⟨h1, h2⟩
      simp only at h1 h2
      subst h1
      refine ⟨⟨[], ng2, run2, true, i2⟩, ?_, rfl, h2⟩
      simp [aggPull, aggDrainGrouped, finalizedStep, h2]
    · exact ⟨rfl, rfl⟩
  · exact aggNG_emits_one rfl rfl rfl

/-- C9: `Copy` allocates a fresh accumulator seeded with the
template's data; folding any tuple sequence through the copy leaves
the template cell — hence its `Finalize` result and `GetTupleDesc` —
untouched, and more generally touches no cell but the copy's own, so
two copies of one template accumulate independently. -/
theorem claim_C9_copy_independent (h : AggHeap) (i : Nat) (hi : i < h.length) :
    ∃ (h2 : AggHeap) (j : Nat), heapCopy h i = some (h2, j) ∧ j ≠ i
    ∧ h2.get? i = h.get? i
    ∧ h2.get? j = h.get? i
    ∧ (∀ (ts : List Tuple) (h3 : AggHeap), heapFold j h2 ts = some h3 →
        h3.get? i = h.get? i
        ∧ (h3.get? i).map AggState.Finalize = (h.get? i).map AggState.Finalize
        ∧ (h3.get? i).map AggState.GetTupleDesc = (h.get? i).map AggState.GetTupleDesc)
    ∧ (∀ k, k ≠ j → ∀ (ts : List Tuple) (h3 : AggHeap),
        heapFold j h2 ts = some h3 → h3.get? k = h2.get? k) := by
  have hs : h.get? i = some (h.get ⟨i, hi⟩) := List.get?_eq_get hi
  set s := h.get ⟨i, hi⟩ with hsdef
  have happi : (h ++ [s.Copy]).get? i = h.get? i := by
    simp only [List.get?_eq_getElem?]
    exact List.getElem?_append_left hi
  refine ⟨h ++ [s.Copy], h.length, ?_, by omega, happi, ?_, ?_, ?_⟩
  · unfold heapCopy
    rw [hs]
    rfl
  · rw [List.get?_concat_length, hs]
    rfl
  · intro ts h3 hfold
    have hfr := heapFold_frame (show i ≠ h.length by omega) ts hfold
    have hmain : h3.get? i = h.get? i := by rw [hfr, happi]
    exact ⟨hmain, by rw [hmain], by rw [hmain]⟩
  · intro k hk ts h3 hfold
    exact heapFold_frame hk ts hfold

/-- Witness for C9 at a one-cell heap holding a Sum template. -/
theorem claim_C9_copy_independent_witness :
    ∃ (h2 : AggHeap) (j : Nat),
      heapCopy [initSumAggState "s" (fieldExpr 0 .IntType)] 0 = some (h2, j) ∧ j ≠ 0
      ∧ h2.get? 0 = [initSumAggState "s" (fieldExpr 0 .IntType)].get? 0
      ∧ h2.get? j = [initSumAggState "s" (fieldExpr 0 .IntType)].get? 0
      ∧ (∀ (ts : List Tuple) (h3 : AggHeap), heapFold j h2 ts = some h3 →
          h3.get? 0 = [initSumAggState "s" (fieldExpr 0 .IntType)].get? 0
          ∧ (h3.get? 0).map AggState.Finalize
              = ([initSumAggState "s" (fieldExpr 0 .IntType)].get? 0).map AggState.Finalize
          ∧ (h3.get? 0).map AggState.GetTupleDesc
              = ([initSumAggState "s" (fieldExpr 0 .IntType)].get? 0).map AggState.GetTupleDesc)
      ∧ (∀ k, k ≠ j → ∀ (ts : List Tuple) (h3 : AggHeap),
          heapFold j h2 ts = some h3 → h3.get? k = h2.get? k) :=
  claim_C9_copy_independent [initSumAggState "s" (fieldExpr 0 .IntType)] 0
    (by simp)

/-! ### Permanence of end-of-stream, per operator -/

theorem listPull_perm {s : List Tuple}
    (h : (listPull s).1 = ((none : Option Tuple), (none : Option Err))) :
    Silent listPull (listPull s).2 := by
  cases s with
  | nil => exact listPull_silent_nil
  | cons t ts => simp [listPull] at h

/-- The godb OrderBy keeps answering `(nil, io.EOF)` once exhausted. -/
theorem listPullEOF_perm {s : List Tuple}
    (h : (listPullEOF s).1 = ((none : Option Tuple), some Err.ioEOF)) :
    ∀ n, ∀ r ∈ pullN listPullEOF n (listPullEOF s).2,
      r = ((none : Option Tuple), some Err.ioEOF) := by
  cases s with
  | nil =>
    intro n
    induction n with
    | zero => intro r hr; simp [pullN] at hr
    | succ n ih =>
      intro r hr
      rcases List.mem_cons.mp hr with h2 | h2
      · rw [h2]; rfl
      · exact ih r h2
  | cons t ts => simp [listPullEOF] at h

theorem limitPull_perm {s : LimitSt}
    (h : (limitPull s).1 = ((none : Option Tuple), (none : Option Err))) :
    Silent limitPull (limitPull s).2 := by
  obtain ⟨n, c, ts⟩ := s
  by_cases hc : n ≤ (c : Int)
  · have heq : limitPull ⟨n, c, ts⟩ = ((none, none), ⟨n, c, ts⟩) := by
      simp [limitPull, if_pos hc]
    rw [heq]
    exact limitPull_silent_done hc
  · cases ts with
    | nil =>
      have heq : limitPull ⟨n, c, []⟩ = ((none, none), ⟨n, c + 1, []⟩) := by
        simp [limitPull, if_neg hc]
      rw [heq]
      exact limitPull_silent_empty
    | cons t ts2 =>
      have heq : limitPull ⟨n, c, t :: ts2⟩ = ((some t, none), ⟨n, c + 1, ts2⟩) := by
        simp [limitPull, if_neg hc]
      rw [heq] at h
      simp at h

theorem joinPull_exh {j : EqualityJoin} {rs : List Tuple} :
    ∀ (s : JoinSt),
    (joinPull j rs s).1 = ((none : Option Tuple), (none : Option Err)) →
    ∃ remR, (joinPull j rs s).2 = ⟨none, [], remR⟩
  | ⟨none, [], remR⟩, _ => ⟨remR, by rw [joinPull]⟩
  | ⟨none, l :: ls, x⟩, hp => by
    rw [show joinPull j rs ⟨none, l :: ls, x⟩ = joinPull j rs ⟨some l, ls, rs⟩ from by
      conv_lhs => rw [joinPull]] at hp ⊢
    exact joinPull_exh ⟨some l, ls, rs⟩ hp
  | ⟨some l, ls, []⟩, hp => by
    rw [show joinPull j rs ⟨some l, ls, []⟩ = joinPull j rs ⟨none, ls, []⟩ from by
      conv_lhs => rw [joinPull]] at hp ⊢
    exact joinPull_exh ⟨none, ls, []⟩ hp
  | ⟨some l, ls, r :: rs2⟩, hp => by
    rw [joinPull] at hp ⊢
    cases hlv : j.leftField.EvalExpr (some l) with
    | error e => simp [hlv] at hp
    | ok lv =>
      cases hrv : j.rightField.EvalExpr (some r) with
      | error e => simp [hlv, hrv] at hp
      | ok rv =>
        simp only [hlv, hrv] at hp ⊢
        by_cases heq : lv = rv
        · rw [if_pos heq] at hp; simp at hp
        · rw [if_neg heq] at hp ⊢
          exact joinPull_exh ⟨some l, ls, rs2⟩ hp
termination_by s => (s.remLeft.length, if s.leftTuple.isSome then s.remRight.length + 1 else 0)
decreasing_by
  all_goals simp_all
  all_goals omega

theorem joinPull_perm {j : EqualityJoin} {rs : List Tuple} {s : JoinSt}
    (h : (joinPull j rs s).1 = ((none : Option Tuple), (none : Option Err))) :
    Silent (joinPull j rs) (joinPull j rs s).2 := by
  obtain ⟨remR, heq⟩ := joinPull_exh s h
  rw [heq]
  exact joinPull_silent_done

theorem insertDrain_not_nilnil (f : Tuple → Option String) :
    ∀ (c : Int) (ts : List Tuple),
    (insertDrain f c ts).1 ≠ ((none : Option Tuple), (none : Option Err))
  | c, [] => by simp [insertDrain]
  | c, t :: ts => by
    cases hf : f t with
    | some e => simp [insertDrain, hf]
    | none =>
      rw [show insertDrain f c (t :: ts) = insertDrain f (c + 1) ts from by
        simp [insertDrain, hf]]
      exact insertDrain_not_nilnil f (c + 1) ts

theorem insertPull_perm {f : Tuple → Option String} {s : InsertSt}
    (h : (insertPull f s).1 = ((none : Option Tuple), (none : Option Err))) :
    Silent (insertPull f) (insertPull f s).2 := by
  obtain ⟨ret, c, ts⟩ := s
  cases ret with
  | true =>
    have heq : insertPull f ⟨true, c, ts⟩ = ((none, none), ⟨true, c, ts⟩) := rfl
    rw [heq]
    apply silent_of_invariant (fun s2 => s2.returned = true)
    · rintro ⟨r2, c2, ts2⟩ h2
      simp only at h2
      subst h2
      exact ⟨rfl, rfl⟩
    · rfl
  | false =>
    exact absurd h (insertDrain_not_nilnil f c ts)

theorem deleteDrain_not_nilnil (f : Tuple → Option String) :
    ∀ (c : Int) (ts : List Tuple),
    (deleteDrain f c ts).1 ≠ ((none : Option Tuple), (none : Option Err))
  | c, [] => by simp [deleteDrain]
  | c, t :: ts => by
    cases hf : f t with
    | some e => simp [deleteDrain, hf]
    | none =>
      rw [show deleteDrain f c (t :: ts) = deleteDrain f (c + 1) ts from by
        simp [deleteDrain, hf]]
      exact deleteDrain_not_nilnil f (c + 1) ts

theorem deletePull_perm {f : Tuple → Option String} {s : InsertSt}
    (h : (deletePull f s).1 = ((none : Option Tuple), (none : Option Err))) :
    Silent (deletePull f) (deletePull f s).2 := by
  obtain ⟨ret, c, ts⟩ := s
  cases ret with
  | true =>
    have heq : deletePull f ⟨true, c, ts⟩ = ((none, none), ⟨true, c, ts⟩) := rfl
    rw [heq]
    apply silent_of_invariant (fun s2 => s2.returned = true)
    · rintro ⟨r2, c2, ts2⟩ h2
      simp only at h2
      subst h2
      exact ⟨rfl, rfl⟩
    · rfl
  | false =>
    exact absurd h (deleteDrain_not_nilnil f c ts)

theorem filterPull_silent_nil {f : FilterOp} : Silent (filterPull f) [] := by
  apply silent_of_invariant (fun s => s = [])
  · rintro s rfl; exact ⟨rfl, rfl⟩
  · rfl

theorem filterPull_perm {f : FilterOp} :
    ∀ {s : List Tuple},
    (filterPull f s).1 = ((none : Option Tuple), (none : Option Err)) →
    Silent (filterPull f) (filterPull f s).2
  | [], _ => filterPull_silent_nil
  | t :: ts, h => by
    rw [filterPull] at h ⊢
    cases hlv : f.left.EvalExpr (some t) with
    | error e => simp [hlv] at h
    | ok lv =>
      cases hrv : f.right.EvalExpr (some t) with
      | error e => simp [hlv, hrv] at h
      | ok rv =>
        simp only [hlv, hrv] at h ⊢
        by_cases hpred : f.pred lv rv
        · rw [if_pos hpred] at h; simp at h
        · rw [if_neg hpred] at h ⊢
          exact filterPull_perm h

theorem projectPull_silent_nil {p : Project} {seen : List (List DBValue)} :
    Silent (projectPull p) ([], seen) := by
  apply silent_of_invariant (fun s => s.1 = [])
  · rintro ⟨rem, sn⟩ h1
    simp only at h1
    subst h1
    have heq : projectPull p ([], sn) = ((none, none), ([], sn)) := by
      rw [projectPull]
    rw [heq]
    exact ⟨rfl, rfl⟩
  · rfl

theorem projectPull_perm {p : Project} :
    ∀ {s : List Tuple × List (List DBValue)},
    (projectPull p s).1 = ((none : Option Tuple), (none : Option Err)) →
    Silent (projectPull p) (projectPull p s).2
  | ([], seen), _ => by
    have heq : projectPull p ([], seen) = ((none, none), ([], seen)) := by
      rw [projectPull]
    rw [heq]
    exact projectPull_silent_nil
  | (t :: ts, seen), h => by
    rw [projectPull] at h ⊢
    cases hev : evalAllExprs p.selectFields t with
    | error e => simp [hev] at h
    | ok vals =>
      simp only [hev] at h ⊢
      by_cases hd : p.distinct = true
      · simp only [hd, if_true] at h ⊢
        by_cases hseen : (⟨p.Descriptor, vals⟩ : Tuple).tupleKey ∈ seen
        · rw [if_pos hseen] at h ⊢
          exact projectPull_perm h
        · rw [if_neg hseen] at h; simp at h
      · simp only [hd, if_false] at h
        simp at h

/-! ### Aggregator permanence -/

/-- Well-formedness of the group state, maintained by the drain loop:
every slot has one entry per template, and every first-seen key tuple
is bound in the group map. -/
def AggWF (templates : List AggState) (run : AggRun) : Prop :=
  (∀ p ∈ run.aggState, p.2.length = templates.length)
  ∧ (∀ kt ∈ run.groupByList, (lookupGroup run.aggState kt.tupleKey).isSome = true)

theorem addSlot_length {t : Tuple} :
    ∀ {slot : List (Option AggState)} {trem : List AggState}
    {slot2 : List (Option AggState)},
    addSlot t slot trem = some slot2 → slot2.length = slot.length
  | [], _, _, h => by
    simp only [addSlot, Option.some.injEq] at h
    rw [← h]
  | none :: srest, [], _, h => by simp [addSlot] at h
  | none :: srest, tmpl :: trest, slot2, h => by
    rw [addSlot] at h
    cases ha : (AggState.Copy tmpl).AddTuple t with
    | none => rw [ha] at h; simp at h
    | some st2 =>
      rw [ha] at h
      cases hrec : addSlot t srest trest with
      | none => rw [hrec] at h; simp at h
      | some l2 =>
        rw [hrec] at h
        simp only [Option.map_some', Option.some.injEq] at h
        rw [← h, List.length_cons, List.length_cons, addSlot_length hrec]
  | some st :: srest, trem, slot2, h => by
    rw [addSlot] at h
    cases ha : st.AddTuple t with
    | none => rw [ha] at h; simp at h
    | some st2 =>
      rw [ha] at h
      cases hrec : addSlot t srest trem.tail with
      | none => rw [hrec] at h; simp at h
      | some l2 =>
        rw [hrec] at h
        simp only [Option.map_some', Option.some.injEq] at h
        rw [← h, List.length_cons, List.length_cons, addSlot_length hrec]

theorem mem_setGroup :
    ∀ {m : List (List DBValue × List (Option AggState))} {k : List DBValue}
    {s : List (Option AggState)} {p},
    p ∈ setGroup m k s → p = (k, s) ∨ p ∈ m
  | [], k, s, p, h => by
    simp only [setGroup, List.mem_singleton] at h
    exact .inl h
  | (k0, s0) :: rest, k, s, p, h => by
    by_cases hk : k0 = k
    · rw [show setGroup ((k0, s0) :: rest) k s = (k0, s) :: rest from by
        simp [setGroup, hk]] at h
      rcases List.mem_cons.mp h with h2 | h2
      · subst hk; exact .inl h2
      · exact .inr (List.mem_cons_of_mem _ h2)
    · rw [show setGroup ((k0, s0) :: rest) k s = (k0, s0) :: setGroup rest k s from by
        simp [setGroup, hk]] at h
      rcases List.mem_cons.mp h with h2 | h2
      · exact .inr (h2 ▸ List.mem_cons_self _ _)
      · rcases mem_setGroup h2 with h3 | h3
        · exact .inl h3
        · exact .inr (List.mem_cons_of_mem _ h3)

theorem lookupGroup_cons {k0 k : List DBValue} {s0 : List (Option AggState)}
    {rest : List (List DBValue × List (Option AggState))} :
    lookupGroup ((k0, s0) :: rest) k
      = if k0 = k then some s0 else lookupGroup rest k := by
  unfold lookupGroup
  rw [List.find?_cons]
  by_cases h : k0 = k
  · simp [h]
  · simp [h]

theorem lookup_setGroup :
    ∀ (m : List (List DBValue × List (Option AggState))) (k k2 : List DBValue)
    (s : List (Option AggState)),
    lookupGroup (setGroup m k s) k2 = if k2 = k then some s else lookupGroup m k2
  | [], k, k2, s => by
    rw [show setGroup [] k s = [(k, s)] from rfl, lookupGroup_cons]
    by_cases h : k2 = k
    · rw [if_pos h.symm, if_pos h]
    · rw [if_neg (fun he => h he.symm), if_neg h]
  | (k0, s0) :: rest, k, k2, s => by
    have ih := lookup_setGroup rest k k2 s
    by_cases hk : k0 = k
    · rw [show setGroup ((k0, s0) :: rest) k s = (k0, s) :: rest from by
        simp [setGroup, hk]]
      rw [lookupGroup_cons, lookupGroup_cons]
      split_ifs <;> simp_all
    · rw [show setGroup ((k0, s0) :: rest) k s = (k0, s0) :: setGroup rest k s from by
        simp [setGroup, hk]]
      rw [lookupGroup_cons, lookupGroup_cons, ih]
      split_ifs <;> simp_all

/-- `lookupGroup` finds an actual binding of the map. -/
theorem lookup_mem {m : List (List DBValue × List (Option AggState))}
    {k : List DBValue} {s : List (Option AggState)}
    (h : lookupGroup m k = some s) : (k, s) ∈ m := by
  unfold lookupGroup at h
  cases hf : m.find? (fun p => decide (p.1 = k)) with
  | none => rw [hf] at h; simp at h
  | some p =>
    rw [hf] at h
    simp only [Option.map_some', Option.some.injEq] at h
    have hmem := List.mem_of_find?_eq_some hf
    have hprop := List.find?_some hf
    simp only [decide_eq_true_eq] at hprop
    have : p = (k, s) := by
      obtain ⟨p1, p2⟩ := p
      simp only at hprop h
      rw [hprop, h]
    exact this ▸ hmem

theorem aggDrainGrouped_wf {gs : List Expr} {templates : List AggState} :
    ∀ {ts : List Tuple} {run run2 : AggRun},
    aggDrainGrouped gs templates ts run = .ok run2 →
    AggWF templates run → AggWF templates run2
  | [], run, run2, h, hwf => DrainRes.ok.inj h ▸ hwf
  | t :: ts, run, run2, h, hwf => by
    rw [aggDrainGrouped] at h
    cases hext : extractGroupByKeyTuple gs t with
    | error e => simp [hext] at h
    | ok keygenTup =>
      simp only [hext] at h
      cases hlk : lookupGroup run.aggState keygenTup.tupleKey with
      | none =>
        simp only [hlk] at h
        cases hadd : addSlot t (List.replicate templates.length none) templates with
        | none => rw [hadd] at h; simp at h
        | some slot2 =>
          rw [hadd] at h
          refine aggDrainGrouped_wf h ⟨?_, ?_⟩
          · intro p hp
            rcases mem_setGroup hp with h2 | h2
            · rw [h2]
              show slot2.length = templates.length
              rw [addSlot_length hadd, List.length_replicate]
            · exact hwf.1 p h2
          · intro kt hkt
            rcases List.mem_append.mp hkt with h2 | h2
            · rw [lookup_setGroup]
              by_cases he : kt.tupleKey = keygenTup.tupleKey
              · rw [if_pos he]; rfl
              · rw [if_neg he]; exact hwf.2 kt h2
            · rw [List.mem_singleton.mp h2]
              rw [lookup_setGroup, if_pos rfl]
              rfl
      | some slot =>
        simp only [hlk] at h
        cases hadd : addSlot t slot templates with
        | none => rw [hadd] at h; simp at h
        | some slot2 =>
          rw [hadd] at h
          refine aggDrainGrouped_wf h ⟨?_, ?_⟩
          · intro p hp
            rcases mem_setGroup hp with h2 | h2
            · rw [h2]
              show slot2.length = templates.length
              have hslot : slot.length = templates.length :=
                hwf.1 _ (lookup_mem hlk)
              rw [addSlot_length hadd, hslot]
            · exact hwf.1 p h2
          · intro kt hkt
            rw [lookup_setGroup]
            by_cases he : kt.tupleKey = keygenTup.tupleKey
            · rw [if_pos he]; rfl
            · rw [if_neg he]; exact hwf.2 kt hkt

/-- `groupResFold` yields a nil result tuple exactly for an empty slot
with a nil seed. -/
theorem groupResFold_some_none {kt : Tuple} :
    ∀ {slot : List (Option AggState)} {acc : Option Tuple},
    groupResFold kt acc slot = some none → slot = [] ∧ acc = none
  | [], acc, h => by
    simp only [groupResFold, Option.some.injEq] at h
    exact ⟨rfl, h⟩
  | none :: rest, acc, h => by simp [groupResFold] at h
  | some st :: rest, acc, h => by
    cases acc with
    | none =>
      rw [groupResFold] at h
      obtain ⟨-, h2⟩ := groupResFold_some_none h
      simp [joinTuples] at h2
    | some r =>
      rw [groupResFold] at h
      obtain ⟨-, h2⟩ := groupResFold_some_none h
      simp [joinTuples] at h2

/-- Folding step of the grouped aggregator pull at a drained state. -/
theorem aggPull_grouped_step {a : Aggregator} {gs : List Expr}
    (hgb : a.groupByFields = some gs)
    {ng : List AggState} {run : AggRun} {b : Bool} {i : Nat} :
    aggPull a ⟨[], ng, run, b, i⟩
      = match finalizedStep run i with
        | none => none
        | some (r, i2) => some (r, ⟨[], ng, run, true, i2⟩) := by
  rw [aggPull, hgb]
  rfl

/-- Once the finalized iteration has run past the end of the group
list, the grouped aggregator stays exhausted. -/
theorem aggPull_grouped_silent_past {a : Aggregator} {gs : List Expr}
    (hgb : a.groupByFields = some gs) {run2 : AggRun} {i : Nat}
    (hget : run2.groupByList.get? i = none) {ng : List AggState} :
    OSilent (aggPull a) ⟨[], ng, run2, true, i⟩ := by
  apply osilent_of_invariant
    (fun st => st.childRem = [] ∧ st.run.groupByList.get? st.finIdx = none)
  · rintro ⟨rem, ng2, runx, b2, i2⟩ ⟨h1, h2⟩
    simp only at h1 h2
    subst h1
    refine ⟨⟨[], ng2, runx, true, i2⟩, ?_, rfl, h2⟩
    rw [aggPull_grouped_step hgb]
    rw [List.get?_eq_getElem?] at h2
    simp [finalizedStep, h2]
  · exact ⟨rfl, hget⟩

/-- With no accumulator templates, every finalized group collapses to
a nil result, so the grouped aggregator keeps reporting `(nil, nil)`
from any finalized position. -/
theorem aggPull_grouped_silent_empty {a : Aggregator} {gs : List Expr}
    (hgb : a.groupByFields = some gs) (htm : a.newAggState = [])
    {run2 : AggRun} (hwf2 : AggWF a.newAggState run2)
    {ng : List AggState} {i : Nat} :
    OSilent (aggPull a) ⟨[], ng, run2, true, i⟩ := by
  apply osilent_of_invariant
    (fun st => st.childRem = [] ∧ AggWF a.newAggState st.run)
  · rintro ⟨rem, ng2, runx, b2, i2⟩ ⟨h1, hwf⟩
    simp only at h1 hwf
    subst h1
    cases hget : runx.groupByList.get? i2 with
    | none =>
      refine ⟨⟨[], ng2, runx, true, i2⟩, ?_, rfl, hwf⟩
      rw [aggPull_grouped_step hgb]
      rw [List.get?_eq_getElem?] at hget
      simp [finalizedStep, hget]
    | some kt =>
      have hktmem : kt ∈ runx.groupByList := List.get?_mem hget
      have hsome := hwf.2 kt hktmem
      cases hlk : lookupGroup runx.aggState kt.tupleKey with
      | none => rw [hlk] at hsome; simp at hsome
      | some slot =>
        have hlen : slot.length = a.newAggState.length := hwf.1 _ (lookup_mem hlk)
        rw [htm] at hlen
        have hslot : slot = [] := List.length_eq_zero.mp hlen
        subst hslot
        refine ⟨⟨[], ng2, runx, true, i2 + 1⟩, ?_, rfl, hwf⟩
        rw [aggPull_grouped_step hgb]
        rw [List.get?_eq_getElem?] at hget
        simp [finalizedStep, hget, hlk, groupResFold]
  · exact ⟨rfl, hwf2⟩

/-- Reduction of the no-group pull. -/
theorem aggPull_ng_eq {a : Aggregator} (hgb : a.groupByFields = none)
    (s : AggIterSt) :
    aggPull a s
      = match aggDrainNG s.ngState s.childRem with
        | none => none
        | some ng2 =>
          if s.finBuilt then
            some ((none, none), ⟨[], ng2, s.run, true, s.finIdx⟩)
          else
            some ((aggFinalizeNG ng2, none), ⟨[], ng2, s.run, true, s.finIdx⟩) := by
  rw [aggPull, hgb]

/-- Reduction of the grouped pull. -/
theorem aggPull_g_eq {a : Aggregator} {gs : List Expr}
    (hgb : a.groupByFields = some gs) (s : AggIterSt) :
    aggPull a s
      = match aggDrainGrouped gs a.newAggState s.childRem s.run with
        | .panic => none
        | .fail e rest run2 =>
          some ((none, some (.msg e)), ⟨rest, s.ngState, run2, s.finBuilt, s.finIdx⟩)
        | .ok run2 =>
          match finalizedStep run2 s.finIdx with
          | none => none
          | some (r, i2) => some (r, ⟨[], s.ngState, run2, true, i2⟩) := by
  rw [aggPull, hgb]

/-- Permanence for the Aggregator: a pull that signals `(nil, nil)`
from a well-formed state is followed only by `(nil, nil)` answers. -/
theorem aggPull_perm {a : Aggregator} {s s2 : AggIterSt}
    (hWF : AggWF a.newAggState s.run)
    (hp : aggPull a s = some (((none : Option Tuple), (none : Option Err)), s2)) :
    OSilent (aggPull a) s2 := by
  cases hgb : a.groupByFields with
  | none =>
    rw [aggPull_ng_eq hgb] at hp
    cases hd : aggDrainNG s.ngState s.childRem with
    | none => simp only [hd] at hp; exact Option.noConfusion hp
    | some ng2 =>
      simp only [hd] at hp
      cases hb : s.finBuilt with
      | true =>
        simp only [hb, if_true] at hp
        obtain ⟨-, hs2⟩ := Prod.mk.injEq .. ▸ Option.some.inj hp
        rw [← hs2]
        exact aggPull_ng_silent hgb
      | false =>
        simp only [hb, Bool.false_eq_true, if_false] at hp
        obtain ⟨-, hs2⟩ := Prod.mk.injEq .. ▸ Option.some.inj hp
        rw [← hs2]
        exact aggPull_ng_silent hgb
  | some gs =>
    rw [aggPull_g_eq hgb] at hp
    cases hdr : aggDrainGrouped gs a.newAggState s.childRem s.run with
    | panic => simp only [hdr] at hp; exact Option.noConfusion hp
    | fail e rest runx => simp only [hdr] at hp; simp at hp
    | ok run2 =>
      have hwf2 : AggWF a.newAggState run2 := aggDrainGrouped_wf hdr hWF
      simp only [hdr] at hp
      cases hfs : finalizedStep run2 s.finIdx with
      | none => simp only [hfs] at hp; exact Option.noConfusion hp
      | some pr =>
        obtain ⟨r, i2⟩ := pr
        simp only [hfs, Option.some.injEq, Prod.mk.injEq] at hp
        obtain ⟨hr, hs2⟩ := hp
        rw [← hs2]
        rw [finalizedStep] at hfs
        cases hget : run2.groupByList.get? s.finIdx with
        | none =>
          simp only [hget, Option.some.injEq, Prod.mk.injEq] at hfs
          rw [← hfs.2]
          exact aggPull_grouped_silent_past hgb hget
        | some kt =>
          simp only [hget] at hfs
          cases hlk : lookupGroup run2.aggState kt.tupleKey with
          | none => simp only [hlk] at hfs; exact Option.noConfusion hfs
          | some slot =>
            simp only [hlk] at hfs
            cases hgr : groupResFold kt none slot with
            | none => simp only [hgr] at hfs; exact Option.noConfusion hfs
            | some res =>
              simp only [hgr, Option.some.injEq, Prod.mk.injEq] at hfs
              have hres : res = none := by
                have h1 := hfs.1.trans hr
                exact (Prod.mk.injEq .. ▸ h1).1
              subst hres
              have hslot : slot = [] := (groupResFold_some_none hgr).1
              subst hslot
              have hlen : (0 : Nat) = a.newAggState.length :=
                hwf2.1 _ (lookup_mem hlk)
              have htm : a.newAggState = [] :=
                List.length_eq_zero.mp hlen.symm
              exact aggPull_grouped_silent_empty hgb htm hwf2

/-- C8: for every modelled operator — both OrderBy implementations,
Limit, Join, Insert, Delete, Filter, Project and the Aggregator — once
the pull function has answered its end-of-stream signal, every further
call answers the same signal again and never yields another tuple.
(Children are modelled as drained lists, which themselves satisfy the
permanence the claim assumes of them; the Aggregator conjunct carries
the well-formedness its drain loop maintains for its group state.) -/
theorem claim_C8_eos_permanent :
    (∀ s : List Tuple,
      (listPull s).1 = ((none : Option Tuple), (none : Option Err)) →
      Silent listPull (listPull s).2)
    ∧ (∀ s : List Tuple,
      (listPullEOF s).1 = ((none : Option Tuple), some Err.ioEOF) →
      ∀ n, ∀ r ∈ pullN listPullEOF n (listPullEOF s).2,
        r = ((none : Option Tuple), some Err.ioEOF))
    ∧ (∀ s : LimitSt,
      (limitPull s).1 = ((none : Option Tuple), (none : Option Err)) →
      Silent limitPull (limitPull s).2)
    ∧ (∀ (j : EqualityJoin) (rs : List Tuple) (s : JoinSt),
      (joinPull j rs s).1 = ((none : Option Tuple), (none : Option Err)) →
      Silent (joinPull j rs) (joinPull j rs s).2)
    ∧ (∀ (f : Tuple → Option String) (s : InsertSt),
      (insertPull f s).1 = ((none : Option Tuple), (none : Option Err)) →
      Silent (insertPull f) (insertPull f s).2)
    ∧ (∀ (f : Tuple → Option String) (s : InsertSt),
      (deletePull f s).1 = ((none : Option Tuple), (none : Option Err)) →
      Silent (deletePull f) (deletePull f s).2)
    ∧ (∀ (fo : FilterOp) (s : List Tuple),
      (filterPull fo s).1 = ((none : Option Tuple), (none : Option Err)) →
      Silent (filterPull fo) (filterPull fo s).2)
    ∧ (∀ (p : Project) (s : List Tuple × List (List DBValue)),
      (projectPull p s).1 = ((none : Option Tuple), (none : Option Err)) →
      Silent (projectPull p) (projectPull p s).2)
    ∧ (∀ (a : Aggregator) (s s2 : AggIterSt), AggWF a.newAggState s.run →
      aggPull a s = some (((none : Option Tuple), (none : Option Err)), s2) →
      OSilent (aggPull a) s2) :=
  ⟨fun _ h => listPull_perm h,
   fun _ h => listPullEOF_perm h,
   fun _ h => limitPull_perm h,
   fun _ _ _ h => joinPull_perm h,
   fun _ _ h => insertPull_perm h,
   fun _ _ h => deletePull_perm h,
   fun _ _ h => filterPull_perm h,
   fun _ _ h => projectPull_perm h,
   fun _ _ _ hwf hp => aggPull_perm hwf hp⟩

/-- Witness for C8 at concrete exhausted states of Limit and Insert. -/
theorem claim_C8_eos_permanent_witness :
    Silent limitPull (limitPull ⟨0, 0, []⟩).2
    ∧ Silent (insertPull fun _ => none)
        (insertPull (fun _ => none) ⟨true, 3, []⟩).2 :=
  ⟨claim_C8_eos_permanent.2.2.1 ⟨0, 0, []⟩ rfl,
   claim_C8_eos_permanent.2.2.2.2.1 (fun _ => none) ⟨true, 3, []⟩ rfl⟩

/-- C4: for a well-formed OrderBy (constructor accepted the key and
flag lists) whose key expressions are defined — evaluate successfully
with their declared integer or string type — on every input tuple, the
iterator streams exactly its sorted buffer; that buffer is a
permutation of the input; every pair (in particular every adjacent
pair) of the output is non-decreasing under the multi-key comparator
(first differing key decides, honouring its ascending flag); and two
tuples whose key expressions evaluate equally keep their original
relative order. -/
theorem claim_C4_orderby (fields : List Expr) (asc : List Bool) (o : OrderBy)
    (hnew : NewOrderBy fields asc = .ok o)
    (ts : List Tuple) (HT : ∀ t ∈ ts, obWellTyped o t = true) :
    Emits listPull (o.sortedBuffer ts) (o.sortedBuffer ts)
    ∧ (o.sortedBuffer ts).Perm ts
    ∧ (o.sortedBuffer ts).Pairwise (fun a b => o.less b a = some false)
    ∧ (∀ a b, List.Sublist [a, b] ts →
        (∀ p ∈ o.orderBy.zip o.ascending,
          p.1.EvalExpr (some a) = p.1.EvalExpr (some b)) →
        List.Sublist [a, b] (o.sortedBuffer ts)) := by
  have HT2 : ∀ t ∈ ts, obP o t := fun t ht => (obWellTyped_iff o t).mp (HT t ht)
  refine ⟨listPull_emits _, ?_, sortedBuffer_pairwise o ts HT2, ?_⟩
  · exact List.mergeSort_perm ts _
  · intro a b hsub heq
    exact sortedBuffer_stable o ts HT2 a b hsub heq

/-- Witness for C4: one ascending integer key over the tuples 3,1,2. -/
theorem claim_C4_orderby_witness :
    Emits listPull
      ((⟨[fieldExpr 0 .IntType], [true]⟩ : OrderBy).sortedBuffer
        [intTuple 3, intTuple 1, intTuple 2])
      ((⟨[fieldExpr 0 .IntType], [true]⟩ : OrderBy).sortedBuffer
        [intTuple 3, intTuple 1, intTuple 2])
    ∧ ((⟨[fieldExpr 0 .IntType], [true]⟩ : OrderBy).sortedBuffer
        [intTuple 3, intTuple 1, intTuple 2]).Perm
        [intTuple 3, intTuple 1, intTuple 2]
    ∧ ((⟨[fieldExpr 0 .IntType], [true]⟩ : OrderBy).sortedBuffer
        [intTuple 3, intTuple 1, intTuple 2]).Pairwise
        (fun a b => (⟨[fieldExpr 0 .IntType], [true]⟩ : OrderBy).less b a = some false)
    ∧ (∀ a b, List.Sublist [a, b] [intTuple 3, intTuple 1, intTuple 2] →
        (∀ p ∈ ([fieldExpr 0 .IntType] : List Expr).zip [true],
          p.1.EvalExpr (some a) = p.1.EvalExpr (some b)) →
        List.Sublist [a, b]
          ((⟨[fieldExpr 0 .IntType], [true]⟩ : OrderBy).sortedBuffer
            [intTuple 3, intTuple 1, intTuple 2])) :=
  claim_C4_orderby [fieldExpr 0 .IntType] [true] ⟨[fieldExpr 0 .IntType], [true]⟩
    rfl [intTuple 3, intTuple 1, intTuple 2] (by decide)

/-! ### Grouped aggregation: expected output (the claim's formula)

`specGroupedOutputs` is written from the claim's words: one output
tuple per distinct evaluated group key (value equality), in first-seen
order, each the group-key tuple concatenated with every accumulator's
finalized one-field result in template order. -/

def keyTupleOf (gs : List Expr) (t : Tuple) : Option Tuple :=
  (extractGroupByKeyTuple gs t).toOption

/-- The group-key tuples of a stream, one per distinct key (by value
equality of the evaluated fields), in first-seen order; `seen` holds
the keys already encountered. -/
def firstSeenKeys (gs : List Expr) : List Tuple → List (List DBValue) → List Tuple
  | [], _ => []
  | t :: ts, seen =>
    match keyTupleOf gs t with
    | none => firstSeenKeys gs ts seen
    | some kt =>
      if kt.tupleKey ∈ seen then firstSeenKeys gs ts seen
      else kt :: firstSeenKeys gs ts (kt.tupleKey :: seen)

/-- The tuples of the stream belonging to the group keyed `k`. -/
def groupMembers (gs : List Expr) (ts : List Tuple) (k : List DBValue) : List Tuple :=
  ts.filter fun t => decide ((keyTupleOf gs t).map Tuple.tupleKey = some k)

/-- Fold a sequence of tuples into one accumulator. -/
def foldAgg : AggState → List Tuple → Option AggState
  | st, [] => some st
  | st, t :: ts =>
    match st.AddTuple t with
    | none => none
    | some st2 => foldAgg st2 ts

/-- The group-key tuple concatenated with the finalized one-field
results, in order. -/
def concatFinalized (kt : Tuple) (fins : List Tuple) : Tuple :=
  fins.foldl tupleConcat kt

/-- The output the claim describes. -/
def specGroupedOutputs (gs : List Expr) (templates : List AggState)
    (ts : List Tuple) : List Tuple :=
  (firstSeenKeys gs ts []).map fun kt =>
    concatFinalized kt (templates.map fun tmpl =>
      ((foldAgg tmpl.Copy (groupMembers gs ts kt.tupleKey)).map
        AggState.Finalize).getD ⟨⟨[]⟩, []⟩)

/-! ### Accumulator-kind bookkeeping: whether `AddTuple` panics depends
only on the variant and the governing expression, both preserved by
`AddTuple`. -/

def sameKind : AggState → AggState → Prop
  | .CountAggState _ e _, .CountAggState _ e2 _ => e = e2
  | .SumAggState _ e _, .SumAggState _ e2 _ => e = e2
  | .AvgAggState _ e _ _, .AvgAggState _ e2 _ _ => e = e2
  | .MaxAggState _ e _ _, .MaxAggState _ e2 _ _ => e = e2
  | .MinAggState _ e _ _, .MinAggState _ e2 _ _ => e = e2
  | _, _ => False

theorem sameKind_refl (s : AggState) : sameKind s s := by
  cases s <;> rfl

theorem sameKind_trans {a b c : AggState} (h1 : sameKind a b) (h2 : sameKind b c) :
    sameKind a c := by
  cases a <;> cases b <;> cases c <;> simp_all [sameKind]

theorem addTuple_sameKind {s s2 : AggState} {t : Tuple}
    (h : s.AddTuple t = some s2) : sameKind s s2 := by
  cases s with
  | CountAggState al e c =>
    simp only [AggState.AddTuple, Option.some.injEq] at h
    rw [← h]; rfl
  | SumAggState al e sum =>
    simp only [AggState.AddTuple] at h
    cases hev : e.EvalExpr (some t) with
    | error err =>
      rw [hev] at h
      simp only [Option.some.injEq] at h
      rw [← h]; rfl
    | ok v =>
      rw [hev] at h
      cases v with
      | IntField n =>
        simp only [Option.some.injEq] at h
        rw [← h]; rfl
      | StringField str => cases h
  | AvgAggState al e sum c =>
    simp only [AggState.AddTuple] at h
    cases hev : e.EvalExpr (some t) with
    | error err =>
      rw [hev] at h
      simp only [Option.some.injEq] at h
      rw [← h]; rfl
    | ok v =>
      rw [hev] at h
      cases v with
      | IntField n =>
        simp only [Option.some.injEq] at h
        rw [← h]; rfl
      | StringField str => cases h
  | MaxAggState al e m first =>
    simp only [AggState.AddTuple] at h
    cases hev : e.EvalExpr (some t) with
    | error err =>
      rw [hev] at h
      simp only [Option.some.injEq] at h
      rw [← h]; rfl
    | ok v =>
      cases v with
      | IntField n =>
        simp only [hev] at h
        by_cases hf : first = true
        · rw [if_pos hf] at h
          simp only [Option.some.injEq] at h
          rw [← h]; rfl
        · rw [if_neg hf] at h
          by_cases hg : n > m
          · rw [if_pos hg] at h
            simp only [Option.some.injEq] at h
            rw [← h]; rfl
          · rw [if_neg hg] at h
            simp only [Option.some.injEq] at h
            rw [← h]; rfl
      | StringField str =>
        simp only [hev] at h
        exact Option.noConfusion h
  | MinAggState al e m first =>
    simp only [AggState.AddTuple] at h
    cases hev : e.EvalExpr (some t) with
    | error err =>
      rw [hev] at h
      simp only [Option.some.injEq] at h
      rw [← h]; rfl
    | ok v =>
      cases v with
      | IntField n =>
        simp only [hev] at h
        by_cases hf : first = true
        · rw [if_pos hf] at h
          simp only [Option.some.injEq] at h
          rw [← h]; rfl
        · rw [if_neg hf] at h
          by_cases hg : n < m
          · rw [if_pos hg] at h
            simp only [Option.some.injEq] at h
            rw [← h]; rfl
          · rw [if_neg hg] at h
            simp only [Option.some.injEq] at h
            rw [← h]; rfl
      | StringField str =>
        simp only [hev] at h
        exact Option.noConfusion h

theorem addTuple_isSome_char (s : AggState) (t : Tuple) :
    (s.AddTuple t).isSome =
      match s with
      | .CountAggState _ _ _ => true
      | .SumAggState _ e _ =>
        (match e.EvalExpr (some t) with
          | .ok (.StringField _) => false
          | _ => true)
      | .AvgAggState _ e _ _ =>
        (match e.EvalExpr (some t) with
          | .ok (.StringField _) => false
          | _ => true)
      | .MaxAggState _ e _ _ =>
        (match e.EvalExpr (some t) with
          | .ok (.StringField _) => false
          | _ => true)
      | .MinAggState _ e _ _ =>
        (match e.EvalExpr (some t) with
          | .ok (.StringField _) => false
          | _ => true) := by
  cases s with
  | CountAggState al e c => rfl
  | SumAggState al e sum =>
    simp only [AggState.AddTuple]
    cases hev : e.EvalExpr (some t) with
    | error _ => rfl
    | ok v => cases v <;> rfl
  | AvgAggState al e sum c =>
    simp only [AggState.AddTuple]
    cases hev : e.EvalExpr (some t) with
    | error _ => rfl
    | ok v => cases v <;> rfl
  | MaxAggState al e m f =>
    simp only [AggState.AddTuple]
    cases hev : e.EvalExpr (some t) with
    | error _ => rfl
    | ok v =>
      cases v with
      | IntField n =>
        by_cases hf : f = true
        · simp [hf]
        · by_cases hg : n > m <;> simp [hf, hg]
      | StringField _ => rfl
  | MinAggState al e m f =>
    simp only [AggState.AddTuple]
    cases hev : e.EvalExpr (some t) with
    | error _ => rfl
    | ok v =>
      cases v with
      | IntField n =>
        by_cases hf : f = true
        · simp [hf]
        · by_cases hg : n < m <;> simp [hf, hg]
      | StringField _ => rfl

theorem addTuple_isSome_congr {s s2 : AggState} {t : Tuple}
    (hk : sameKind s s2) :
    (s.AddTuple t).isSome = (s2.AddTuple t).isSome := by
  rw [addTuple_isSome_char, addTuple_isSome_char]
  cases s <;> cases s2 <;> simp only [sameKind] at hk <;> try exact hk.elim
  all_goals (subst hk; rfl)

/-! ### Pointwise fold lemmas for accumulator arrays -/

/-- Pointwise kind agreement between templates and an accumulator
array. -/
def Kinds (templates states : List AggState) : Prop :=
  List.Forall₂ sameKind templates states

theorem foldAgg_sameKind :
    ∀ {st st2 : AggState} {ms : List Tuple},
    foldAgg st ms = some st2 → sameKind st st2
  | st, st2, [], h => by
    simp only [foldAgg, Option.some.injEq] at h
    rw [← h]
    exact sameKind_refl st
  | st, st2, t :: ms, h => by
    rw [foldAgg] at h
    cases ha : st.AddTuple t with
    | none => rw [ha] at h; exact Option.noConfusion h
    | some stm =>
      rw [ha] at h
      exact sameKind_trans (addTuple_sameKind ha) (foldAgg_sameKind h)

theorem foldAgg_append (st : AggState) (ms : List Tuple) (t : Tuple) :
    foldAgg st (ms ++ [t]) = (foldAgg st ms).bind (fun s2 => s2.AddTuple t) := by
  induction ms generalizing st with
  | nil =>
    show foldAgg st [t] = (foldAgg st []).bind fun s2 => s2.AddTuple t
    simp only [foldAgg, Option.some_bind]
    cases ha : st.AddTuple t with
    | none => rfl
    | some st2 => rfl
  | cons m ms ih =>
    show foldAgg st (m :: (ms ++ [t]))
      = (foldAgg st (m :: ms)).bind fun s2 => s2.AddTuple t
    simp only [foldAgg]
    cases ha : st.AddTuple m with
    | none => rfl
    | some st2 => exact ih st2

theorem addAll_somes :
    ∀ {templates states : List AggState} {t : Tuple},
    Kinds templates states →
    (∀ tmpl ∈ templates, (tmpl.AddTuple t).isSome = true) →
    ∃ states2, addAll states t = some states2 ∧ Kinds templates states2
  | [], states, t, hk, _ => by
    cases hk
    exact ⟨[], rfl, List.Forall₂.nil⟩
  | tmpl :: trest, states, t, hk, hadd => by
    cases hk with
    | cons hks hkrest =>
      rename_i st strest
      have hsome : (st.AddTuple t).isSome = true := by
        rw [← addTuple_isSome_congr hks]
        exact hadd tmpl (List.mem_cons_self _ _)
      obtain ⟨st2, hst2⟩ := Option.isSome_iff_exists.mp hsome
      obtain ⟨sts2, hs2, hk2⟩ := addAll_somes hkrest
        (fun q hq => hadd q (List.mem_cons_of_mem _ hq))
      refine ⟨st2 :: sts2, ?_, ?_⟩
      · rw [addAll, hst2, hs2]
        rfl
      · exact List.Forall₂.cons
          (sameKind_trans hks (addTuple_sameKind hst2)) hk2

/-- `addSlot` on an all-filled slot is `addAll` under the `some`
wrapping (the template list is not consulted). -/
theorem addSlot_somes {t : Tuple} :
    ∀ (states : List AggState) (trem : List AggState),
    addSlot t (states.map some) trem = (addAll states t).map (List.map some)
  | [], trem => by simp [addSlot, addAll]
  | st :: rest, trem => by
    show addSlot t (some st :: rest.map some) trem
      = (addAll (st :: rest) t).map (List.map some)
    simp only [addSlot, addAll]
    cases ha : st.AddTuple t with
    | none => rfl
    | some st2 =>
      rw [addSlot_somes rest trem.tail]
      cases addAll rest t <;> rfl

/-- `addSlot` on a fresh all-nil slot copies each template and is
again `addAll` on the templates. -/
theorem addSlot_fresh {t : Tuple} :
    ∀ (templates : List AggState),
    addSlot t (List.replicate templates.length none) templates
      = (addAll templates t).map (List.map some)
  | [] => by simp [addSlot, addAll]
  | tmpl :: trest => by
    show addSlot t (none :: List.replicate trest.length none) (tmpl :: trest)
      = (addAll (tmpl :: trest) t).map (List.map some)
    simp only [addSlot, addAll, AggState.Copy]
    cases ha : tmpl.AddTuple t with
    | none => rfl
    | some st2 =>
      rw [addSlot_fresh trest]
      cases addAll trest t <;> rfl

/-! ### `slotOf`: the accumulator array a group reaches after its
members have been folded in, one fold per template position. -/

def slotOf : List AggState → List Tuple → Option (List AggState)
  | [], _ => some []
  | tmpl :: rest, ms =>
    match foldAgg tmpl.Copy ms with
    | none => none
    | some st => (slotOf rest ms).map fun l => st :: l

theorem slotOf_nil : ∀ (templates : List AggState), slotOf templates [] = some templates
  | [] => rfl
  | tmpl :: rest => by
    show (match foldAgg tmpl.Copy [] with
      | none => none
      | some st => (slotOf rest []).map fun l => st :: l) = some (tmpl :: rest)
    rw [slotOf_nil rest]
    rfl

theorem slotOf_append (templates : List AggState) (ms : List Tuple) (t : Tuple) :
    slotOf templates (ms ++ [t])
      = (slotOf templates ms).bind fun states => addAll states t := by
  induction templates with
  | nil => rfl
  | cons tmpl rest ih =>
    show (match foldAgg tmpl.Copy (ms ++ [t]) with
      | none => none
      | some st => (slotOf rest (ms ++ [t])).map fun l => st :: l)
      = (slotOf (tmpl :: rest) ms).bind fun states => addAll states t
    rw [foldAgg_append, ih]
    show _ = (match foldAgg tmpl.Copy ms with
      | none => none
      | some st => (slotOf rest ms).map fun l => st :: l).bind
        fun states => addAll states t
    cases hf : foldAgg tmpl.Copy ms with
    | none => rfl
    | some st =>
      simp only [Option.some_bind]
      cases hs : slotOf rest ms with
      | none =>
        simp only [Option.map_none', Option.none_bind]
        cases st.AddTuple t <;> rfl
      | some states =>
        simp only [Option.map_some', Option.some_bind, addAll]

theorem slotOf_kinds :
    ∀ {templates : List AggState} {ms : List Tuple} {states : List AggState},
    slotOf templates ms = some states → Kinds templates states
  | [], ms, states, h => by
    simp only [slotOf, Option.some.injEq] at h
    rw [← h]
    exact List.Forall₂.nil
  | tmpl :: rest, ms, states, h => by
    rw [show slotOf (tmpl :: rest) ms = (match foldAgg tmpl.Copy ms with
      | none => none
      | some st => (slotOf rest ms).map fun l => st :: l) from rfl] at h
    cases hf : foldAgg tmpl.Copy ms with
    | none => rw [hf] at h; exact Option.noConfusion h
    | some st =>
      rw [hf] at h
      cases hs : slotOf rest ms with
      | none => rw [hs] at h; exact Option.noConfusion h
      | some sts =>
        rw [hs] at h
        simp only [Option.map_some', Option.some.injEq] at h
        rw [← h]
        exact List.Forall₂.cons (foldAgg_sameKind hf) (slotOf_kinds hs)

theorem kinds_length {templates states : List AggState} (h : Kinds templates states) :
    states.length = templates.length :=
  h.length_eq.symm

theorem slotOf_single (templates : List AggState) (t : Tuple) :
    slotOf templates [t] = addAll templates t := by
  have h := slotOf_append templates [] t
  rw [List.nil_append, slotOf_nil, Option.some_bind] at h
  exact h

/-- Reading a computed slot through any per-element function: the slot
entries are the per-template folds. -/
theorem slotOf_map_eq {f : AggState → Tuple} {d : Tuple} :
    ∀ {templates : List AggState} {ms : List Tuple} {states : List AggState},
    slotOf templates ms = some states →
    states.map f = templates.map fun tmpl =>
      ((foldAgg tmpl.Copy ms).map f).getD d
  | [], ms, states, h => by
    simp only [slotOf, Option.some.injEq] at h
    rw [← h]
    rfl
  | tmpl :: rest, ms, states, h => by
    rw [show slotOf (tmpl :: rest) ms = (match foldAgg tmpl.Copy ms with
      | none => none
      | some st => (slotOf rest ms).map fun l => st :: l) from rfl] at h
    cases hf : foldAgg tmpl.Copy ms with
    | none => rw [hf] at h; exact Option.noConfusion h
    | some st =>
      rw [hf] at h
      cases hs : slotOf rest ms with
      | none => rw [hs] at h; exact Option.noConfusion h
      | some sts =>
        rw [hs] at h
        simp only [Option.map_some', Option.some.injEq] at h
        rw [← h, List.map_cons, List.map_cons, slotOf_map_eq hs, hf]
        rfl

theorem kinds_refl : ∀ (l : List AggState), Kinds l l
  | [] => List.Forall₂.nil
  | s :: rest => List.Forall₂.cons (sameKind_refl s) (kinds_refl rest)

theorem keyTupleOf_ok {gs : List Expr} {t kt : Tuple}
    (h : extractGroupByKeyTuple gs t = .ok kt) : keyTupleOf gs t = some kt := by
  simp [keyTupleOf, h, Except.toOption]

theorem groupMembers_cons (gs : List Expr) (t : Tuple) (ts : List Tuple)
    (k : List DBValue) :
    groupMembers gs (t :: ts) k
      = if (keyTupleOf gs t).map Tuple.tupleKey = some k
        then t :: groupMembers gs ts k else groupMembers gs ts k := by
  rw [groupMembers, List.filter_cons]
  by_cases h : (keyTupleOf gs t).map Tuple.tupleKey = some k
  · rw [if_pos h, if_pos (by simp [h])]
    rfl
  · rw [if_neg h, if_neg (by simp [h])]
    rfl

theorem firstSeenKeys_congr (gs : List Expr) :
    ∀ (ts : List Tuple) (seen seen2 : List (List DBValue)),
    (∀ k, k ∈ seen ↔ k ∈ seen2) →
    firstSeenKeys gs ts seen = firstSeenKeys gs ts seen2
  | [], _, _, _ => rfl
  | t :: ts, seen, seen2, h => by
    cases hk : keyTupleOf gs t with
    | none =>
      simp only [firstSeenKeys, hk]
      exact firstSeenKeys_congr gs ts seen seen2 h
    | some kt =>
      simp only [firstSeenKeys, hk]
      by_cases hmem : kt.tupleKey ∈ seen
      · rw [if_pos hmem, if_pos ((h _).mp hmem)]
        exact firstSeenKeys_congr gs ts seen seen2 h
      · rw [if_neg hmem, if_neg (fun h2 => hmem ((h _).mpr h2))]
        congr 1
        apply firstSeenKeys_congr
        intro k
        simp only [List.mem_cons]
        exact or_congr Iff.rfl (h k)

/-- The drain loop, related to the claim's formula: starting from a
state whose group map holds, for every already-seen key, the
accumulator array obtained by folding that key's members so far (`mf`),
the loop completes (under defined keys and panic-free folds), appends
the newly-seen key tuples in first-seen order, and leaves every group's
array equal to the fold over all its members. -/
theorem aggDrain_spec (gs : List Expr) (templates : List AggState) :
    ∀ (rest : List Tuple) (run : AggRun) (mf : List DBValue → List Tuple),
    (∀ t ∈ rest, ∃ kt, extractGroupByKeyTuple gs t = .ok kt) →
    (∀ tmpl ∈ templates, ∀ t ∈ rest, (tmpl.AddTuple t).isSome = true) →
    (∀ k, lookupGroup run.aggState k =
      if k ∈ run.groupByList.map Tuple.tupleKey
      then (slotOf templates (mf k)).map (List.map some) else none) →
    (∀ kt ∈ run.groupByList, (slotOf templates (mf kt.tupleKey)).isSome = true) →
    (∀ k, k ∉ run.groupByList.map Tuple.tupleKey → mf k = []) →
    ∃ run2, aggDrainGrouped gs templates rest run = .ok run2
      ∧ run2.groupByList
          = run.groupByList
            ++ firstSeenKeys gs rest (run.groupByList.map Tuple.tupleKey)
      ∧ (∀ k, lookupGroup run2.aggState k =
          if k ∈ run2.groupByList.map Tuple.tupleKey
          then (slotOf templates (mf k ++ groupMembers gs rest k)).map
            (List.map some)
          else none)
      ∧ (∀ kt ∈ run2.groupByList,
          (slotOf templates
            (mf kt.tupleKey ++ groupMembers gs rest kt.tupleKey)).isSome = true)
  | [], run, mf, _, _, hlook, hsome, _ => by
    refine ⟨run, rfl, by simp [firstSeenKeys], ?_, ?_⟩
    · intro k
      rw [show groupMembers gs [] k = [] from rfl, List.append_nil]
      exact hlook k
    · intro kt hkt
      rw [show groupMembers gs [] kt.tupleKey = [] from rfl, List.append_nil]
      exact hsome kt hkt
  | t :: rest2, run, mf, hkeys, hadd, hlook, hsome, hmf0 => by
    obtain ⟨kt, hkt⟩ := hkeys t (List.mem_cons_self _ _)
    have hktk : keyTupleOf gs t = some kt := keyTupleOf_ok hkt
    have hkeys2 : ∀ u ∈ rest2, ∃ k2, extractGroupByKeyTuple gs u = .ok k2 :=
      fun u hu => hkeys u (List.mem_cons_of_mem _ hu)
    have hadd2 : ∀ tmpl ∈ templates, ∀ u ∈ rest2, (tmpl.AddTuple u).isSome = true :=
      fun tmpl hm u hu => hadd tmpl hm u (List.mem_cons_of_mem _ hu)
    have haddt : ∀ tmpl ∈ templates, (tmpl.AddTuple t).isSome = true :=
      fun tmpl hm => hadd tmpl hm t (List.mem_cons_self _ _)
    by_cases hmem : kt.tupleKey ∈ run.groupByList.map Tuple.tupleKey
    · -- the key has been seen: fold into the existing slot
      obtain ⟨kt0, hkt0mem, hkt0key⟩ := List.mem_map.mp hmem
      have hslot := hsome kt0 hkt0mem
      rw [hkt0key] at hslot
      obtain ⟨states, hstates⟩ := Option.isSome_iff_exists.mp hslot
      have hkinds := slotOf_kinds hstates
      obtain ⟨states2, hadd2some, hkinds2⟩ := addAll_somes hkinds haddt
      have hlk : lookupGroup run.aggState kt.tupleKey
          = some (states.map some) := by
        rw [hlook kt.tupleKey, if_pos hmem, hstates]
        rfl
      have hslot2 : slotOf templates (mf kt.tupleKey ++ [t]) = some states2 := by
        rw [slotOf_append, hstates, Option.some_bind, hadd2some]
      have hstep : aggDrainGrouped gs templates (t :: rest2) run
          = aggDrainGrouped gs templates rest2
            ⟨setGroup run.aggState kt.tupleKey (states2.map some),
              run.groupByList⟩ := by
        rw [aggDrainGrouped]
        simp only [hkt, hlk, addSlot_somes, hadd2some, Option.map_some']
      obtain ⟨run2, hdr, hgbl2, hlook2, hsome2⟩ :=
        aggDrain_spec gs templates rest2
          ⟨setGroup run.aggState kt.tupleKey (states2.map some), run.groupByList⟩
          (fun k => if k = kt.tupleKey then mf k ++ [t] else mf k)
          hkeys2 hadd2
          (by
            intro k
            show lookupGroup (setGroup run.aggState kt.tupleKey (states2.map some)) k = _
            beta_reduce
            rw [lookup_setGroup]
            by_cases hk : k = kt.tupleKey
            · rw [if_pos hk, if_pos (by rw [hk]; exact hmem), if_pos hk, hk, hslot2]
              rfl
            · rw [if_neg hk, hlook k, if_neg hk])
          (by
            intro kt2 hkt2
            show (slotOf templates
              (if kt2.tupleKey = kt.tupleKey then mf kt2.tupleKey ++ [t]
                else mf kt2.tupleKey)).isSome = true
            by_cases hk : kt2.tupleKey = kt.tupleKey
            · rw [if_pos hk, hk, hslot2]
              rfl
            · rw [if_neg hk]
              exact hsome kt2 hkt2)
          (by
            intro k hk
            beta_reduce
            have hne : ¬ (k = kt.tupleKey) := fun he => hk (he ▸ hmem)
            rw [if_neg hne]
            exact hmf0 k hk)
      beta_reduce at hlook2 hsome2
      refine ⟨run2, hstep ▸ hdr, ?_, ?_, ?_⟩
      · rw [hgbl2]
        show run.groupByList ++ _ = _
        simp only [firstSeenKeys, hktk, if_pos hmem]
      · intro k
        rw [hlook2 k]
        by_cases hc : k ∈ List.map Tuple.tupleKey run2.groupByList
        · rw [if_pos hc, if_pos hc]
          congr 2
          rw [groupMembers_cons, hktk]
          by_cases hk : k = kt.tupleKey
          · rw [if_pos hk, if_pos (by simp [hk])]
            simp
          · rw [if_neg hk, if_neg (by
              simp only [Option.map_some', Option.some.injEq]
              exact fun he => hk he.symm)]
        · rw [if_neg hc, if_neg hc]
      · intro kt2 hkt2
        have hs := hsome2 kt2 hkt2
        rw [groupMembers_cons, hktk]
        by_cases hk : kt2.tupleKey = kt.tupleKey
        · rw [if_pos (by simp [hk])]
          rw [if_pos hk] at hs
          rw [show (mf kt2.tupleKey ++ [t]) ++ groupMembers gs rest2 kt2.tupleKey
              = mf kt2.tupleKey ++ t :: groupMembers gs rest2 kt2.tupleKey by simp] at hs
          exact hs
        · rw [if_neg (by
            simp only [Option.map_some', Option.some.injEq]
            exact fun he => hk he.symm)]
          rw [if_neg hk] at hs
          exact hs
    · -- first sight of the key: bind a fresh slot, record the key tuple
      have hlk : lookupGroup run.aggState kt.tupleKey = none := by
        rw [hlook kt.tupleKey, if_neg hmem]
      obtain ⟨states1, haddsome, hkinds1⟩ :=
        addAll_somes (kinds_refl templates) haddt
      have hslot1 : slotOf templates [t] = some states1 := by
        rw [slotOf_single, haddsome]
      have hmfk : mf kt.tupleKey = [] := hmf0 kt.tupleKey hmem
      have hstep : aggDrainGrouped gs templates (t :: rest2) run
          = aggDrainGrouped gs templates rest2
            ⟨setGroup run.aggState kt.tupleKey (states1.map some),
              run.groupByList ++ [kt]⟩ := by
        rw [aggDrainGrouped]
        simp only [hkt, hlk, addSlot_fresh, haddsome, Option.map_some']
      obtain ⟨run2, hdr, hgbl2, hlook2, hsome2⟩ :=
        aggDrain_spec gs templates rest2
          ⟨setGroup run.aggState kt.tupleKey (states1.map some),
            run.groupByList ++ [kt]⟩
          (fun k => if k = kt.tupleKey then [t] else mf k)
          hkeys2 hadd2
          (by
            intro k
            show lookupGroup (setGroup run.aggState kt.tupleKey (states1.map some)) k = _
            beta_reduce
            rw [lookup_setGroup]
            by_cases hk : k = kt.tupleKey
            · rw [if_pos hk,
                if_pos (by
                  rw [hk]
                  simp [List.mem_append]),
                if_pos hk, hslot1]
              rfl
            · rw [if_neg hk, hlook k, if_neg hk]
              by_cases hin : k ∈ run.groupByList.map Tuple.tupleKey
              · rw [if_pos hin, if_pos (by simp [List.mem_append, hin])]
              · rw [if_neg hin, if_neg (by
                  simp only [List.map_append, List.mem_append]
                  rintro (h | h)
                  · exact hin h
                  · simp only [List.map_cons, List.map_nil, List.mem_singleton] at h
                    exact hk h)])
          (by
            intro kt2 hkt2
            show (slotOf templates
              (if kt2.tupleKey = kt.tupleKey then [t] else mf kt2.tupleKey)).isSome = true
            by_cases hk : kt2.tupleKey = kt.tupleKey
            · rw [if_pos hk, hslot1]
              rfl
            · rw [if_neg hk]
              rcases List.mem_append.mp hkt2 with h2 | h2
              · exact hsome kt2 h2
              · rw [List.mem_singleton.mp h2] at hk
                exact absurd rfl hk)
          (by
            intro k hk
            beta_reduce
            simp only [List.map_append, List.mem_append, not_or] at hk
            obtain ⟨hk1, hk2⟩ := hk
            have hkne : ¬ (k = kt.tupleKey) := by
              simp only [List.map_cons, List.map_nil, List.mem_singleton] at hk2
              exact hk2
            rw [if_neg hkne]
            exact hmf0 k hk1)
      beta_reduce at hlook2 hsome2
      refine ⟨run2, hstep ▸ hdr, ?_, ?_, ?_⟩
      · rw [hgbl2]
        show (run.groupByList ++ [kt]) ++ _ = _
        simp only [firstSeenKeys, hktk, if_neg hmem]
        rw [List.append_assoc, List.singleton_append]
        congr 2
        apply firstSeenKeys_congr
        intro k
        simp only [List.map_append, List.mem_append, List.map_cons, List.map_nil,
          List.mem_singleton, List.mem_cons, List.not_mem_nil, or_false]
        exact or_comm
      · intro k
        rw [hlook2 k]
        by_cases hc : k ∈ List.map Tuple.tupleKey run2.groupByList
        · rw [if_pos hc, if_pos hc]
          congr 2
          rw [groupMembers_cons, hktk]
          by_cases hk : k = kt.tupleKey
          · rw [if_pos hk, if_pos (by simp [hk]), hk, hmfk]
            simp
          · rw [if_neg hk, if_neg (by
              simp only [Option.map_some', Option.some.injEq]
              exact fun he => hk he.symm)]
        · rw [if_neg hc, if_neg hc]
      · intro kt2 hkt2
        have hs := hsome2 kt2 hkt2
        rw [groupMembers_cons, hktk]
        by_cases hk : kt2.tupleKey = kt.tupleKey
        · rw [if_pos (by simp [hk]), hk, hmfk, List.nil_append]
          rw [if_pos hk, hk] at hs
          rw [List.singleton_append] at hs
          exact hs
        · rw [if_neg (by
            simp only [Option.map_some', Option.some.injEq]
            exact fun he => hk he.symm)]
          rw [if_neg hk] at hs
          exact hs

/-- With the running result already a tuple, `groupResFold` over a slot
of live accumulators concatenates each `Finalize` result in order. -/
theorem groupResFold_acc (kt : Tuple) :
    ∀ (states : List AggState) (r : Tuple),
    groupResFold kt (some r) (states.map some)
      = some (some (states.foldl (fun a st => tupleConcat a st.Finalize) r))
  | [], r => rfl
  | st :: rest, r => by
    show groupResFold kt (joinTuples (some r) (some st.Finalize)) (rest.map some) = _
    rw [show joinTuples (some r) (some st.Finalize)
        = some (tupleConcat r st.Finalize) from rfl]
    rw [groupResFold_acc kt rest]
    rfl

/-- On a non-empty slot of live accumulators, `groupResFold` from nil
produces exactly the group-key tuple concatenated with every finalized
one-field result, in slot order. -/
theorem groupResFold_fresh (kt : Tuple) (s0 : AggState) (rest : List AggState) :
    groupResFold kt none (some s0 :: rest.map some)
      = some (some (concatFinalized kt
          (s0.Finalize :: rest.map AggState.Finalize))) := by
  show groupResFold kt (joinTuples (some kt) (some s0.Finalize)) (rest.map some) = _
  rw [show joinTuples (some kt) (some s0.Finalize)
      = some (tupleConcat kt s0.Finalize) from rfl]
  rw [groupResFold_acc kt rest]
  rw [concatFinalized, List.foldl_cons, List.foldl_map]

/-- Two states whose single pulls agree have the same emitted traces. -/
theorem oemits_congr {σ : Type} {pull : σ → Option (PullRes × σ)} {s s2 : σ}
    (h : pull s = pull s2) {L : List Tuple} (he : OEmits pull s2 L) :
    OEmits pull s L := by
  cases he with
  | done hsil =>
    refine OEmits.done ?_
    intro n r hr
    cases n with
    | zero => simp [opullN] at hr
    | succ n =>
      rw [opullN, h] at hr
      exact hsil (n + 1) r (by rw [opullN]; exact hr)
  | step hp hrest => exact OEmits.step (h.trans hp) hrest

/-- The finalized-tuples phase: from a post-drain state whose group map
binds every listed key tuple to a non-empty fully-live slot, the
grouped aggregator emits exactly one finalized tuple per remaining key,
in list order, and is silent afterwards. -/
theorem aggFinal_emits {a : Aggregator} {gs : List Expr}
    (hgb : a.groupByFields = some gs)
    {run2 : AggRun} {outFn : Tuple → Tuple}
    (hgroups : ∀ kt ∈ run2.groupByList, ∃ states : List AggState, states ≠ [] ∧
      lookupGroup run2.aggState kt.tupleKey = some (states.map some) ∧
      concatFinalized kt (states.map AggState.Finalize) = outFn kt) :
    ∀ (n i : Nat), run2.groupByList.length - i = n →
    ∀ (ng : List AggState) (fb : Bool),
    OEmits (aggPull a) ⟨[], ng, run2, fb, i⟩
      ((run2.groupByList.drop i).map outFn) := by
  intro n
  induction n with
  | zero =>
    intro i hi ng fb
    have hle : run2.groupByList.length ≤ i := Nat.le_of_sub_eq_zero hi
    rw [List.drop_eq_nil_of_le hle, List.map_nil]
    refine OEmits.done ?_
    apply osilent_of_invariant
      (fun st => st.childRem = [] ∧ st.run = run2
        ∧ run2.groupByList.length ≤ st.finIdx)
    · rintro ⟨rem, ng2, runx, b2, i2⟩ ⟨h1, h2, h3⟩
      simp only at h1 h2 h3
      subst h1
      have h3x : runx.groupByList.length ≤ i2 := by rw [h2]; exact h3
      refine ⟨⟨[], ng2, runx, true, i2⟩, ?_, rfl, h2, h3⟩
      rw [aggPull_grouped_step hgb]
      have hn : runx.groupByList.get? i2 = none := List.get?_eq_none.mpr h3x
      rw [List.get?_eq_getElem?] at hn
      simp [finalizedStep, hn]
    · exact ⟨rfl, rfl, hle⟩
  | succ n ih =>
    intro i hi ng fb
    have hlt : i < run2.groupByList.length := by omega
    have hget : run2.groupByList.get? i = some run2.groupByList[i] := by
      rw [List.get?_eq_getElem?, List.getElem?_eq_getElem hlt]
    have hmem : run2.groupByList[i] ∈ run2.groupByList := List.getElem_mem hlt
    obtain ⟨states, hne, hlk, hout⟩ := hgroups run2.groupByList[i] hmem
    obtain ⟨s0, srest, rfl⟩ := List.exists_cons_of_ne_nil hne
    simp only [List.map_cons] at hlk hout
    have hfs : finalizedStep run2 i
        = some ((some (outFn run2.groupByList[i]), none), i + 1) := by
      simp only [finalizedStep, hget, hlk, groupResFold_fresh, hout]
    rw [List.drop_eq_getElem_cons hlt, List.map_cons]
    refine OEmits.step ?_ (ih (i + 1) (by omega) ng true)
    rw [aggPull_grouped_step hgb, hfs]

/-- C3: for every input stream and a non-empty group-by list whose key
evaluations all succeed, the grouped Aggregator emits one output tuple
per distinct group key (value equality of the evaluated fields), in
first-seen order, each the group-key tuple concatenated with every
accumulator's finalized one-field result in template order — provided
(amending the claim) the accumulator-template list is non-empty and
every template's fold accepts every input tuple; with an empty template
list the code emits nothing at all (see the counterexample). -/
theorem claim_C3_grouped_outputs (gs : List Expr) (hgs : gs ≠ [])
    (templates : List AggState) (htm : templates ≠ [])
    (ts : List Tuple)
    (hkeys : ∀ t ∈ ts, ∃ kt, extractGroupByKeyTuple gs t = .ok kt)
    (hadd : ∀ tmpl ∈ templates, ∀ t ∈ ts, (tmpl.AddTuple t).isSome = true) :
    OEmits (aggPull ⟨some gs, templates⟩) (aggInit ⟨some gs, templates⟩ ts)
      (specGroupedOutputs gs templates ts) := by
  obtain ⟨run2, hdrain, hgbl, hlook, hsome⟩ :=
    aggDrain_spec gs templates ts ⟨[], []⟩ (fun _ => []) hkeys hadd
      (by intro k; simp [lookupGroup])
      (by intro kt h; simp at h)
      (by intro k _; rfl)
  have hgbl2 : run2.groupByList = firstSeenKeys gs ts [] := by
    simpa using hgbl
  have hlook2 : ∀ k, lookupGroup run2.aggState k
      = if k ∈ run2.groupByList.map Tuple.tupleKey
        then (slotOf templates (groupMembers gs ts k)).map (List.map some)
        else none := by
    intro k
    simpa using hlook k
  have hsome2 : ∀ kt ∈ run2.groupByList,
      (slotOf templates (groupMembers gs ts kt.tupleKey)).isSome = true := by
    intro kt h
    simpa using hsome kt h
  have hgroups : ∀ kt ∈ run2.groupByList, ∃ states : List AggState, states ≠ [] ∧
      lookupGroup run2.aggState kt.tupleKey = some (states.map some) ∧
      concatFinalized kt (states.map AggState.Finalize)
        = concatFinalized kt (templates.map fun tmpl =>
            ((foldAgg tmpl.Copy (groupMembers gs ts kt.tupleKey)).map
              AggState.Finalize).getD ⟨⟨[]⟩, []⟩) := by
    intro kt hkt
    obtain ⟨states, hstates⟩ := Option.isSome_iff_exists.mp (hsome2 kt hkt)
    refine ⟨states, ?_, ?_, ?_⟩
    · have hlen := kinds_length (slotOf_kinds hstates)
      intro h0
      rw [h0] at hlen
      exact htm (List.eq_nil_of_length_eq_zero hlen.symm)
    · rw [hlook2 kt.tupleKey, if_pos (List.mem_map.mpr ⟨kt, hkt, rfl⟩), hstates]
      rfl
    · rw [slotOf_map_eq hstates]
  have hpeq : aggPull (⟨some gs, templates⟩ : Aggregator)
        (aggInit ⟨some gs, templates⟩ ts)
      = aggPull ⟨some gs, templates⟩ ⟨[], [], run2, false, 0⟩ := by
    rw [show aggInit (⟨some gs, templates⟩ : Aggregator) ts
        = ⟨ts, [], ⟨[], []⟩, false, 0⟩ from rfl]
    rw [aggPull_g_eq rfl, aggPull_g_eq rfl]
    dsimp only
    rw [hdrain]
    rfl
  refine oemits_congr hpeq ?_
  rw [show specGroupedOutputs gs templates ts
      = (firstSeenKeys gs ts []).map (fun kt =>
          concatFinalized kt (templates.map fun tmpl =>
            ((foldAgg tmpl.Copy (groupMembers gs ts kt.tupleKey)).map
              AggState.Finalize).getD ⟨⟨[]⟩, []⟩)) from rfl]
  have hL : (firstSeenKeys gs ts []).map (fun kt =>
        concatFinalized kt (templates.map fun tmpl =>
          ((foldAgg tmpl.Copy (groupMembers gs ts kt.tupleKey)).map
            AggState.Finalize).getD ⟨⟨[]⟩, []⟩))
      = (run2.groupByList.drop 0).map (fun kt =>
          concatFinalized kt (templates.map fun tmpl =>
            ((foldAgg tmpl.Copy (groupMembers gs ts kt.tupleKey)).map
              AggState.Finalize).getD ⟨⟨[]⟩, []⟩)) := by
    rw [List.drop_zero, hgbl2]
  rw [hL]
  exact aggFinal_emits rfl hgroups (run2.groupByList.length - 0) 0 rfl [] false

/-- C3 counterexample to the unamended claim: with an empty accumulator
template list the claim's formula still has one output per distinct
group key (the bare key tuple), but the code emits nothing — on a
one-tuple child with one distinct key, the first pull already reports
the `(nil, nil)` exhaustion signal, because `getFinalizedTuplesIterator`
turns the empty finalized slot into a nil result tuple. -/
theorem claim_C3_counterexample :
    (specGroupedOutputs [fieldExpr 0 .IntType] [] [intTuple 1]).length = 1
    ∧ ¬ OEmits (aggPull ⟨some [fieldExpr 0 .IntType], []⟩)
        (aggInit ⟨some [fieldExpr 0 .IntType], []⟩ [intTuple 1])
        (specGroupedOutputs [fieldExpr 0 .IntType] [] [intTuple 1]) := by
  refine ⟨rfl, ?_⟩
  intro h
  rw [show specGroupedOutputs [fieldExpr 0 .IntType] [] [intTuple 1]
      = [⟨⟨[⟨"field", "", .IntType⟩]⟩, [.IntField 1]⟩] from rfl] at h
  cases h with
  | step hp _ =>
    have hval : (aggPull (⟨some [fieldExpr 0 .IntType], []⟩ : Aggregator)
        (aggInit ⟨some [fieldExpr 0 .IntType], []⟩ [intTuple 1])).map
          (fun p => p.1.1) = some none := rfl
    rw [hp] at hval
    simp at hval

theorem claim_C3_grouped_outputs_witness :
    OEmits
      (aggPull ⟨some [fieldExpr 0 .StringType],
        [initSumAggState "sum" (fieldExpr 1 .IntType)]⟩)
      (aggInit ⟨some [fieldExpr 0 .StringType],
        [initSumAggState "sum" (fieldExpr 1 .IntType)]⟩
        [strIntTuple "A" 1, strIntTuple "B" 2, strIntTuple "A" 3])
      (specGroupedOutputs [fieldExpr 0 .StringType]
        [initSumAggState "sum" (fieldExpr 1 .IntType)]
        [strIntTuple "A" 1, strIntTuple "B" 2, strIntTuple "A" 3])
    ∧ (specGroupedOutputs [fieldExpr 0 .StringType]
        [initSumAggState "sum" (fieldExpr 1 .IntType)]
        [strIntTuple "A" 1, strIntTuple "B" 2, strIntTuple "A" 3]).map Tuple.Fields
      = [[.StringField "A", .IntField 4], [.StringField "B", .IntField 2]] :=
  ⟨claim_C3_grouped_outputs [fieldExpr 0 .StringType] (List.cons_ne_nil _ _)
    [initSumAggState "sum" (fieldExpr 1 .IntType)] (List.cons_ne_nil _ _)
    [strIntTuple "A" 1, strIntTuple "B" 2, strIntTuple "A" 3]
    (by
      intro t ht
      simp only [List.mem_cons, List.not_mem_nil, or_false] at ht
      rcases ht with rfl | rfl | rfl
      · exact ⟨_, rfl⟩
      · exact ⟨_, rfl⟩
      · exact ⟨_, rfl⟩)
    (by
      intro tmpl htmpl t ht
      simp only [List.mem_cons, List.not_mem_nil, or_false] at htmpl ht
      subst htmpl
      rcases ht with rfl | rfl | rfl <;> rfl),
   rfl⟩
